import Mathlib

set_option maxRecDepth 8000

/- Verification development for the translation orchestration and caching
   engine of the tradutor-do-bagui backend (FastAPI + SQLAlchemy + Redis).
   The Python sources under backend/app are shallowly embedded as
   executable Lean definitions; machine text is modelled as List Char and
   bytes as Nat below 256. -/

/-- ASCII whitespace recognised by Python str.split / str.strip. -/
def pyIsWs (c : Char) : Bool :=
  c = ' ' || c = '\t' || c = '\n' || c = '\r' || c = '\x0b' || c = '\x0c'

/-- Per-character lower-casing (ASCII model of Python str.lower). -/
def pyLowerChar (c : Char) : Char := c.toLower

/-- Per-character upper-casing (ASCII model of Python str.upper). -/
def pyUpperChar (c : Char) : Char := c.toUpper

/-- Python str.upper (ASCII model). -/
def pyUpper (s : List Char) : List Char := s.map pyUpperChar

/-- Python str.lower (ASCII model). -/
def pyLower (s : List Char) : List Char := s.map pyLowerChar

/-- Python str.strip(): drop leading and trailing whitespace. -/
def pyStrip (s : List Char) : List Char :=
  ((s.dropWhile pyIsWs).reverse.dropWhile pyIsWs).reverse

/-- Helper for pySplit: cur holds the reversed current word. -/
def pySplitGo (cur : List Char) : List Char → List (List Char)
  | [] => if cur = [] then [] else [cur.reverse]
  | c :: s =>
    if pyIsWs c then
      if cur = [] then pySplitGo [] s else cur.reverse :: pySplitGo [] s
    else pySplitGo (c :: cur) s

/-- Python str.split() with no argument: split on whitespace runs,
    discarding empty fields. -/
def pySplit (s : List Char) : List (List Char) := pySplitGo [] s

/-- Python ' '.join. -/
def joinSpace : List (List Char) → List Char
  | [] => []
  | [w] => w
  | w :: ws => w ++ ' ' :: joinSpace ws

/-- UTF-8 encoding of one unicode scalar value (Python str.encode). -/
def utf8Char (c : Char) : List Nat :=
  let n := c.toNat
  if n < 128 then [n]
  else if n < 2048 then [192 + n / 64, 128 + n % 64]
  else if n < 65536 then [224 + n / 4096, 128 + n / 64 % 64, 128 + n % 64]
  else [240 + n / 262144, 128 + n / 4096 % 64, 128 + n / 64 % 64, 128 + n % 64]

/-- UTF-8 encoding of a text. -/
def utf8Encode (s : List Char) : List Nat := (s.map utf8Char).flatten

/-- Truncate to a 32-bit word. -/
def w32 (x : Nat) : Nat := x % 4294967296

/-- 32-bit right rotation. -/
def rotr32 (n x : Nat) : Nat := w32 ((x >>> n) ||| (x <<< (32 - n)))

def shaCh (x y z : Nat) : Nat := (x &&& y) ^^^ ((x ^^^ 4294967295) &&& z)

def shaMaj (x y z : Nat) : Nat := (x &&& y) ^^^ (x &&& z) ^^^ (y &&& z)

def shaS0 (x : Nat) : Nat := rotr32 2 x ^^^ rotr32 13 x ^^^ rotr32 22 x

def shaS1 (x : Nat) : Nat := rotr32 6 x ^^^ rotr32 11 x ^^^ rotr32 25 x

def shaG0 (x : Nat) : Nat := rotr32 7 x ^^^ rotr32 18 x ^^^ (x >>> 3)

def shaG1 (x : Nat) : Nat := rotr32 17 x ^^^ rotr32 19 x ^^^ (x >>> 10)

/-- SHA-256 round constants. -/
def shaK : List Nat :=
  [1116352408, 1899447441, 3049323471, 3921009573,
   961987163, 1508970993, 2453635748, 2870763221,
   3624381080, 310598401, 607225278, 1426881987,
   1925078388, 2162078206, 2614888103, 3248222580,
   3835390401, 4022224774, 264347078, 604807628,
   770255983, 1249150122, 1555081692, 1996064986,
   2554220882, 2821834349, 2952996808, 3210313671,
   3336571891, 3584528711, 113926993, 338241895,
   666307205, 773529912, 1294757372, 1396182291,
   1695183700, 1986661051, 2177026350, 2456956037,
   2730485921, 2820302411, 3259730800, 3345764771,
   3516065817, 3600352804, 4094571909, 275423344,
   430227734, 506948616, 659060556, 883997877,
   958139571, 1322822218, 1537002063, 1747873779,
   1955562222, 2024104815, 2227730452, 2361852424,
   2428436474, 2756734187, 3204031479, 3329325298]

/-- Big-endian byte decomposition of a number, fixed width. -/
def natToBytesBE (n : Nat) : Nat → List Nat
  | 0 => []
  | k + 1 => natToBytesBE (n / 256) k ++ [n % 256]

/-- SHA-256 message padding: 0x80, zeros, and the 64-bit bit length. -/
def padMsg (m : List Nat) : List Nat :=
  let l := m.length
  m ++ 128 :: List.replicate ((119 - l % 64) % 64) 0 ++ natToBytesBE (8 * l) 8

/-- Group bytes into big-endian 32-bit words. -/
def bytesToWords : List Nat → List Nat
  | b0 :: b1 :: b2 :: b3 :: r =>
    (((b0 * 256 + b1) * 256 + b2) * 256 + b3) :: bytesToWords r
  | _ => []

/-- Group a word list into 16-word blocks (fuel bounds the block count). -/
def toBlocksGo : Nat → List Nat → List (List Nat)
  | 0, _ => []
  | _, [] => []
  | fuel + 1, ws => ws.take 16 :: toBlocksGo fuel (ws.drop 16)

/-- Group a word list into 16-word blocks. -/
def toBlocks (ws : List Nat) : List (List Nat) := toBlocksGo ws.length ws

/-- Extend the 16 block words by n further schedule words. -/
def extSched (ws : List Nat) : Nat → List Nat
  | 0 => ws
  | n + 1 =>
    let t := ws.length
    extSched (ws ++ [w32 (shaG1 (ws.getD (t - 2) 0) + ws.getD (t - 7) 0 +
      shaG0 (ws.getD (t - 15) 0) + ws.getD (t - 16) 0)]) n

/-- One SHA-256 round on the 8-word working state. -/
def shaRound (kw : Nat × Nat) (s : List Nat) : List Nat :=
  match s with
  | [a, b, c, d, e, f, g, h] =>
    let t1 := w32 (h + shaS1 e + shaCh e f g + kw.1 + kw.2)
    let t2 := w32 (shaS0 a + shaMaj a b c)
    [w32 (t1 + t2), a, b, c, w32 (d + t1), e, f, g]
  | _ => s

/-- SHA-256 compression of one 16-word block into the hash state. -/
def shaCompress (h : List Nat) (block : List Nat) : List Nat :=
  let sched := extSched block 48
  let fin := (List.zip shaK sched).foldl (fun s kw => shaRound kw s) h
  List.zipWith (fun x y => w32 (x + y)) h fin

/-- SHA-256 initial hash value. -/
def shaH0 : List Nat :=
  [1779033703, 3144134277, 1013904242, 2773480762,
   1359893119, 2600822924, 528734635, 1541459225]

/-- SHA-256 digest (32 bytes) of a byte message. -/
def sha256 (m : List Nat) : List Nat :=
  let hs := (toBlocks (bytesToWords (padMsg m))).foldl shaCompress shaH0
  (hs.map (fun wd => natToBytesBE wd 4)).flatten

def hexChar (n : Nat) : Char :=
  if n < 10 then Char.ofNat (48 + n) else Char.ofNat (87 + n)

/-- Lowercase hex rendering of a byte list (hashlib hexdigest). -/
def hexdigest (bs : List Nat) : List Char :=
  (bs.map (fun b => [hexChar (b / 16), hexChar (b % 16)])).flatten

/-- CacheService.generate_cache_key: normalise the text
    (strip, lower, collapse whitespace runs), build
    "normalized|source|target", and return the SHA-256 hexdigest. -/
def generate_cache_key (text source_lang target_lang : List Char) : List Char :=
  let normalized_text := joinSpace (pySplit (pyLower (pyStrip text)))
  let cache_string := normalized_text ++ '|' :: source_lang ++ '|' :: target_lang
  hexdigest (sha256 (utf8Encode cache_string))

/-- Two texts differ only in letter casing and whitespace runs
    (including leading/trailing whitespace) iff they have the same
    sequence of lower-cased whitespace-separated words. -/
def sameWordsCI (a b : List Char) : Prop :=
  pySplit (pyLower a) = pySplit (pyLower b)

instance (a b : List Char) : Decidable (sameWordsCI a b) := by
  unfold sameWordsCI; infer_instance

/-- A durable cache row (the TranslationCache ORM model). -/
structure CacheEntry where
  id : Nat
  text_hash : List Char
  original_text : List Char
  translated_text : List Char
  source_language : List Char
  target_language : List Char
  hit_count : Nat
deriving Repr, DecidableEq

/-- The record mirrored into Redis under "translation_cache:<hash>". -/
structure RedisVal where
  translated_text : List Char
  cache_id : Nat
  hit_count : Nat
deriving Repr, DecidableEq

/-- Two-tier cache state: durable rows plus the volatile Redis mirror;
    nextId models the primary-key sequence. -/
structure CacheState where
  db : List CacheEntry
  redis : List (List Char × RedisVal)
  nextId : Nat
deriving Repr, DecidableEq

/-- Fault-injection flags for the external stores: a false flag means the
    corresponding call raises (Redis unreachable, SELECT failing, COMMIT
    failing). -/
structure Faults where
  redisGetOk : Bool
  redisSetOk : Bool
  dbQueryOk : Bool
  dbCommitOk : Bool
deriving Repr, DecidableEq

/-- All external calls succeed. -/
def noFaults : Faults := ⟨true, true, true, true⟩

/-- The value returned to the orchestrator on a cache hit. -/
structure CacheHit where
  translated_text : List Char
  cache_id : Nat
  from_redis : Bool
  hit_count : Nat
deriving Repr, DecidableEq

/-- Association-list lookup for the Redis model. -/
def redisLookup (r : List (List Char × RedisVal)) (k : List Char) :
    Option RedisVal :=
  match r with
  | [] => none
  | (k0, v) :: rest => if k0 = k then some v else redisLookup rest k

/-- redis_client.setex: overwrite-or-insert under a key (TTL not modelled;
    expiry is represented by entries being absent). -/
def redisSet (r : List (List Char × RedisVal)) (k : List Char) (v : RedisVal) :
    List (List Char × RedisVal) :=
  match r with
  | [] => [(k, v)]
  | (k0, v0) :: rest =>
    if k0 = k then (k0, v) :: rest else (k0, v0) :: redisSet rest k v

/-- First durable row matching the SELECT of get_from_cache
    (text_hash, source_language and target_language all filtered). -/
def dbQueryFull (db : List CacheEntry) (h s t : List Char) : Option CacheEntry :=
  match db with
  | [] => none
  | e :: rest =>
    if e.text_hash = h ∧ e.source_language = s ∧ e.target_language = t then some e
    else dbQueryFull rest h s t

/-- First durable row matching the SELECT of save_to_cache
    (text_hash only). -/
def dbQueryHash (db : List CacheEntry) (h : List Char) : Option CacheEntry :=
  match db with
  | [] => none
  | e :: rest => if e.text_hash = h then some e else dbQueryHash rest h

/-- Increment the hit counter of the row with the given id. -/
def dbBumpHit (db : List CacheEntry) (i : Nat) : List CacheEntry :=
  db.map (fun e => if e.id = i then { e with hit_count := e.hit_count + 1 } else e)

/-- CacheService.get_from_cache: probe Redis first; on Redis miss probe the
    durable store, increment its hit counter (commit may fail and roll
    back), repopulate Redis, and return the hit; the whole body is wrapped
    in a try/except that turns any uncaught error (e.g. the SELECT
    failing) into a miss.  Returns the optional hit and the new state. -/
def get_from_cache (f : Faults) (st : CacheState)
    (text source_lang target_lang : List Char) :
    Option CacheHit × CacheState :=
  let cache_key := generate_cache_key text source_lang target_lang
  let cached_redis := if f.redisGetOk then redisLookup st.redis cache_key else none
  match cached_redis with
  | some v =>
    (some ⟨v.translated_text, v.cache_id, true, v.hit_count⟩, st)
  | none =>
    if f.dbQueryOk then
      match dbQueryFull st.db cache_key source_lang target_lang with
      | some e =>
        let newCount := if f.dbCommitOk then e.hit_count + 1 else e.hit_count
        let db1 := if f.dbCommitOk then dbBumpHit st.db e.id else st.db
        let redis1 :=
          if f.redisSetOk then
            redisSet st.redis cache_key ⟨e.translated_text, e.id, newCount⟩
          else st.redis
        (some ⟨e.translated_text, e.id, false, newCount⟩,
          { st with db := db1, redis := redis1 })
      | none => (none, st)
    else
      (none, st)

/-- CacheService.save_to_cache (fault-free path): return the existing row
    unchanged if one carries this hash, otherwise insert a fresh row with
    hit_count = 0 and mirror it into Redis. -/
def save_to_cache (st : CacheState)
    (original_text translated_text source_lang target_lang : List Char) :
    CacheState × CacheEntry :=
  let text_hash := generate_cache_key original_text source_lang target_lang
  match dbQueryHash st.db text_hash with
  | some existing => (st, existing)
  | none =>
    let cache_entry : CacheEntry :=
      ⟨st.nextId, text_hash, original_text, translated_text,
        source_lang, target_lang, 0⟩
    let redis1 := redisSet st.redis text_hash
      ⟨translated_text, cache_entry.id, 0⟩
    ({ db := st.db ++ [cache_entry], redis := redis1, nextId := st.nextId + 1 },
      cache_entry)

/-- C9 counterexample input: one durable row for ("a", en→pt), no Redis
    mirror, and a hit-count commit that fails. -/
def c9state : CacheState :=
  ⟨[⟨0, generate_cache_key (("a").toList) (("en").toList) (("pt").toList),
     ("a").toList, ("b").toList, ("en").toList, ("pt").toList, 0⟩], [], 1⟩

/-- Helper for Python str.replace: k counts characters of a running match
    still to be skipped; at k = 0 a new leftmost match may begin. -/
def replGo (p r : List Char) : Nat → List Char → List Char
  | _, [] => []
  | 0, c :: s =>
    if p.isPrefixOf (c :: s) then r ++ replGo p r (p.length - 1) s
    else c :: replGo p r 0 s
  | k + 1, _ :: s => replGo p r k s

/-- Python str.replace: replace all leftmost non-overlapping occurrences
    of p by r (an empty pattern inserts r at every position). -/
def pyReplace (s p r : List Char) : List Char :=
  if p = [] then r ++ (s.map (fun c => c :: r)).flatten
  else replGo p r 0 s

/-- Python substring test (term in text). -/
def isSubstring (p : List Char) : List Char → Bool
  | [] => p.isPrefixOf []
  | c :: s1 => p.isPrefixOf (c :: s1) || isSubstring p s1

/-- Python dict[key] lookup on an insertion-ordered association list. -/
def glossaryLookup (g : List (List Char × List Char)) (k : List Char) :
    List Char :=
  match g with
  | [] => []
  | (k0, v) :: rest => if k0 = k then v else glossaryLookup rest k

/-- Stable insertion into a length-descending list: x goes before the
    first element that is not strictly longer. -/
def insertDesc (x : List Char) : List (List Char) → List (List Char)
  | [] => [x]
  | y :: ys => if x.length < y.length then y :: insertDesc x ys else x :: y :: ys

/-- sorted(glossary.keys(), key=len, reverse=True): keys in descending
    length order, stable (equal lengths keep insertion order). -/
def sortedTerms (g : List (List Char × List Char)) : List (List Char) :=
  (g.map Prod.fst).foldr insertDesc []

/-- The placeholder f"GLOSSARY_TERM_{idx}". -/
def placeholder (idx : Nat) : List Char :=
  ("GLOSSARY_TERM_").toList ++ (Nat.repr idx).toList

/-- The loop of DeepLService._protect_glossary_terms over the sorted
    terms: replace each term occurring in the running text by its
    placeholder and record placeholder -> glossary[term]. -/
def protectGo (g : List (List Char × List Char)) :
    List (List Char) → Nat → List Char →
    List Char × List (List Char × List Char)
  | [], _, text => (text, [])
  | term :: rest, idx, text =>
    if isSubstring term text then
      let ph := placeholder idx
      let text1 := pyReplace text term ph
      let res := protectGo g rest (idx + 1) text1
      (res.1, (ph, glossaryLookup g term) :: res.2)
    else protectGo g rest (idx + 1) text

/-- DeepLService._protect_glossary_terms. -/
def protect_glossary_terms (text : List Char)
    (g : List (List Char × List Char)) :
    List Char × List (List Char × List Char) :=
  protectGo g (sortedTerms g) 0 text

/-- DeepLService._restore_glossary_terms: substitute every recorded
    placeholder by its stored replacement, in insertion order. -/
def restore_glossary_terms (text : List Char)
    (placeholders : List (List Char × List Char)) : List Char :=
  placeholders.foldl (fun t pr => pyReplace t pr.1 pr.2) text

def retry_attempts : Nat := 3

def backoff_multiplier : Nat := 2

def max_chars_per_request : Nat := 500000

/-- One recorded call to the external provider. -/
structure ProviderCall where
  ptext : List Char
  ptarget : List Char
  psource : Option (List Char)
deriving Repr, DecidableEq

/-- Result of translate_text: success, ValueError on oversized input, or
    the terminal exception wrapping the last provider failure. -/
inductive TransResult where
  | ok (text : List Char)
  | validation (n : Nat)
  | terminal (lastErr : List Char)
deriving Repr, DecidableEq

/-- Observable outcome: the result, the provider calls attempted, and the
    backoff sleeps performed between attempts. -/
structure TransOutcome where
  result : TransResult
  calls : List ProviderCall
  delays : List Nat
deriving Repr, DecidableEq

/-- The retry loop of translate_text.  remaining = retry_attempts - attempt
    is positive on every reachable call; the remaining = 0 case is dead. -/
def translateGo (provider : Nat → Except (List Char) (List Char))
    (ptext target : List Char) (src : Option (List Char))
    (original_terms : List (List Char × List Char)) :
    Nat → Nat → List ProviderCall → List Nat → TransOutcome
  | _, 0, calls, delays => ⟨.terminal [], calls, delays⟩
  | attempt, 1, calls, delays =>
    let calls1 := calls ++ [⟨ptext, target, src⟩]
    match provider attempt with
    | .ok t =>
      let restored := if original_terms = [] then t
        else restore_glossary_terms t original_terms
      ⟨.ok restored, calls1, delays⟩
    | .error e => ⟨.terminal e, calls1, delays⟩
  | attempt, rem + 2, calls, delays =>
    let calls1 := calls ++ [⟨ptext, target, src⟩]
    match provider attempt with
    | .ok t =>
      let restored := if original_terms = [] then t
        else restore_glossary_terms t original_terms
      ⟨.ok restored, calls1, delays⟩
    | .error _ =>
      translateGo provider ptext target src original_terms (attempt + 1)
        (rem + 1) calls1 (delays ++ [backoff_multiplier ^ attempt])

/-- DeepLService.translate_text: short-circuit empty input, validate the
    size cap, protect glossary terms, then call the provider with
    upper-cased language codes under the retry/backoff loop. -/
def translate_text (provider : Nat → Except (List Char) (List Char))
    (text target_lang : List Char) (source_lang : Option (List Char))
    (glossary : List (List Char × List Char)) : TransOutcome :=
  if text = [] ∨ pyStrip text = [] then ⟨.ok [], [], []⟩
  else if max_chars_per_request < text.length then
    ⟨.validation text.length, [], []⟩
  else
    let pg := if glossary = [] then (text, [])
      else protect_glossary_terms text glossary
    translateGo provider pg.1 (pyUpper target_lang)
      (source_lang.map pyUpper) pg.2 0 retry_attempts [] []

/-- The provider of the C5 scenario: fails twice, then succeeds. -/
def failTwiceProvider : Nat → Except (List Char) (List Char) :=
  fun n => if n < 2 then .error (("boom").toList) else .ok (("done").toList)

/-- The cache state left behind by caching "hello" for en→pt (lower-case
    codes), mirrored into Redis. -/
def c10state : CacheState :=
  ⟨[⟨0, generate_cache_key (("hello").toList) (("en").toList) (("pt").toList),
     ("hello").toList, ("ola").toList, ("en").toList, ("pt").toList, 0⟩],
   [(generate_cache_key (("hello").toList) (("en").toList) (("pt").toList),
     ⟨("ola").toList, 0, 0⟩)], 1⟩

inductive TranslationStatus where
  | pending
  | processing
  | completed
  | failed
deriving Repr, DecidableEq

/-- The Translation ORM record (fields used by the orchestrator). -/
structure Translation where
  source_language : List Char
  target_language : List Char
  is_preview : Bool
  total_characters : Nat
  status : TranslationStatus
  progress : Nat
  credits_used : Nat
  credits_saved : Nat
  error_message : Option (List Char)
deriving Repr, DecidableEq

/-- The TranslationChunk ORM record. -/
structure TranslationChunk where
  chunk_order : Nat
  original_text : List Char
  translated_text : List Char
  cache_id : Nat
  from_cache : Bool
  character_count : Nat
deriving Repr, DecidableEq

/-- Running state of the per-chunk loop. -/
structure LoopState where
  cache : CacheState
  total_translated_chars : Nat
  cached_chars : Nat
  chunksAcc : List TranslationChunk
  progress : Nat
deriving Repr, DecidableEq

/-- Result of one processing run: the final record, the committed chunk
    rows, the owner's credit balance, the cache state, and the sequence of
    committed status values. -/
structure JobResult where
  translation : Translation
  chunks : List TranslationChunk
  user_credits : Int
  cache : CacheState
  statusTrace : List TranslationStatus
deriving Repr, DecidableEq

/-- The per-chunk loop: cache lookup; on hit mark from_cache and count
    saved characters; on miss call the provider (its terminal failure
    aborts the job), store the result in the cache and count billed
    characters; then record the chunk and recompute progress. -/
def processChunksGo (f : Faults)
    (tr : List Char → Except (List Char) (List Char))
    (src tgt : List Char) (total : Nat) :
    List (List Char × Nat) → Nat → LoopState →
    Except (List Char × LoopState) LoopState
  | [], _, ls => .ok ls
  | (chunk_text, chunk_order) :: rest, idx, ls =>
    let looked := get_from_cache f ls.cache chunk_text src tgt
    match looked.1 with
    | some hit =>
      let rec1 : TranslationChunk :=
        ⟨chunk_order, chunk_text, hit.translated_text, hit.cache_id, true,
          chunk_text.length⟩
      processChunksGo f tr src tgt total rest (idx + 1)
        ⟨looked.2, ls.total_translated_chars,
          ls.cached_chars + chunk_text.length,
          ls.chunksAcc ++ [rec1], (idx + 1) * 100 / total⟩
    | none =>
      match tr chunk_text with
      | .error e => .error (e, { ls with cache := looked.2 })
      | .ok translated =>
        let saved := save_to_cache looked.2 chunk_text translated src tgt
        let rec1 : TranslationChunk :=
          ⟨chunk_order, chunk_text, translated, saved.2.id, false,
            chunk_text.length⟩
        processChunksGo f tr src tgt total rest (idx + 1)
          ⟨saved.1, ls.total_translated_chars + chunk_text.length,
            ls.cached_chars, ls.chunksAcc ++ [rec1], (idx + 1) * 100 / total⟩

/-- TranslationService.process_translation: set the record to PROCESSING,
    run the chunk loop, then on success store billed/saved totals, debit
    the user's credits (non-preview only) and complete; on a chunk
    failure record the error and mark the job failed, keeping the chunks
    already resolved. -/
def process_translation (f : Faults)
    (tr : List Char → Except (List Char) (List Char)) (st : CacheState)
    (t : Translation) (chunks : List (List Char × Nat)) (user_credits : Int) :
    JobResult :=
  let t1 := { t with status := TranslationStatus.processing }
  match processChunksGo f tr t1.source_language t1.target_language
      chunks.length chunks 0 ⟨st, 0, 0, [], t1.progress⟩ with
  | .ok ls =>
    let credits_used := ls.total_translated_chars
    let credits_saved := ls.cached_chars
    let newCredits := if t1.is_preview then user_credits
      else user_credits - (credits_used : Int)
    ⟨{ t1 with
        credits_used := credits_used
        credits_saved := credits_saved
        status := TranslationStatus.completed
        progress := 100 },
      ls.chunksAcc, newCredits, ls.cache,
      [TranslationStatus.processing, TranslationStatus.completed]⟩
  | .error (e, ls) =>
    ⟨{ t1 with status := TranslationStatus.failed, error_message := some e },
      ls.chunksAcc, user_credits, ls.cache,
      [TranslationStatus.processing, TranslationStatus.failed]⟩

/-- Modelled from the spec: TextSplitter.split_text is not under src/;
    per section 4.1 the chunker returns a single chunk (order 0) for
    non-empty text within the maximum chunk size, and no chunk for empty
    input. -/
def split_text_single (text : List Char) : List (List Char × Nat) :=
  if text = [] then [] else [(text, 0)]

def catText : List Char := ("The cat sat.").toList

/-- A fresh en→pt non-preview job for the 12-character scenario text. -/
def catJob : Translation :=
  ⟨("en").toList, ("pt").toList, false, 12, .pending, 0, 0, 0, none⟩

/-- Scenario provider: always translates successfully. -/
def catProvider : List Char → Except (List Char) (List Char) :=
  fun _ => .ok (("O gato sentou.").toList)

/-- First job, from the empty cache. -/
def catRun1 : JobResult :=
  process_translation noFaults catProvider ⟨[], [], 0⟩ catJob
    (split_text_single catText) 100000

/-- Second identical job, from the state the first job left behind. -/
def catRun2 : JobResult :=
  process_translation noFaults catProvider catRun1.cache catJob
    (split_text_single catText) 100000

/-- Second identical job when the volatile mirror has expired (durable
    rows kept, Redis empty). -/
def catRun2Durable : JobResult :=
  process_translation noFaults catProvider
    ⟨catRun1.cache.db, [], catRun1.cache.nextId⟩ catJob
    (split_text_single catText) 100000

/-- A job already in the terminal completed state. -/
def doneJob : Translation :=
  ⟨("en").toList, ("pt").toList, false, 1, .completed, 100, 1, 0, none⟩

/-- Characters that can occur in a placeholder token. -/
def phChar (c : Char) : Bool := (("GLOSARYTEM_0123456789").toList).contains c

/-- A text free of placeholder-alphabet characters. -/
def phFree (s : List Char) : Prop := s.all (fun c => !phChar c) = true

/-- A protected text decomposes into plain segments and placeholder
    holes. -/
inductive MixItem where
  | seg (u : List Char)
  | hole (i : Nat)
deriving Repr, DecidableEq

/-- Flatten a mix back to text, rendering each hole as its placeholder. -/
def flatMix : List MixItem → List Char
  | [] => []
  | .seg u :: m => u ++ flatMix m
  | .hole i :: m => placeholder i ++ flatMix m

/-- Well-formedness of one mix item: segments carry no placeholder
    characters and hole indices are single digits. -/
def itemOK : MixItem → Prop
  | .seg u => phFree u
  | .hole i => i < 10

/-- Well-formed mix. -/
def mixOK (m : List MixItem) : Prop := ∀ it ∈ m, itemOK it

/-- No two adjacent segments (protection keeps segments separated by
    holes). -/
def altOK : List MixItem → Prop
  | .seg _ :: .seg _ :: _ => False
  | _ :: rest => altOK rest
  | [] => True

/-- A mix whose hole indices are all below the bound. -/
def holesLT (m : List MixItem) (n : Nat) : Prop :=
  ∀ i, MixItem.hole i ∈ m → i < n

/-- Prepend a character to the leading segment of a mix. -/
def consSeg (c : Char) : List MixItem → List MixItem
  | .seg u :: m => .seg (c :: u) :: m
  | m => .seg [c] :: m

/-- The mix produced by replacing occurrences of t in a plain segment by
    the hole i (mirrors replGo). -/
def splitRepGo (t : List Char) (i : Nat) : Nat → List Char → List MixItem
  | _, [] => []
  | 0, c :: s =>
    if t.isPrefixOf (c :: s) then .hole i :: splitRepGo t i (t.length - 1) s
    else consSeg c (splitRepGo t i 0 s)
  | k + 1, _ :: s => splitRepGo t i k s

/-- One protection step on a mix: replace t by hole i inside every
    segment. -/
def protM (t : List Char) (i : Nat) : List MixItem → List MixItem
  | [] => []
  | .seg u :: m => splitRepGo t i 0 u ++ protM t i m
  | .hole j :: m => .hole j :: protM t i m

/-- One restoration step on a mix: holes with index i become the plain
    segment v. -/
def restM (i : Nat) (v : List Char) (m : List MixItem) : List MixItem :=
  m.map (fun it => match it with
    | .hole j => if j = i then .seg v else .hole j
    | x => x)

/-- Restore a list of (index, text) pairs left to right. -/
def multiRestM (m : List MixItem) : List (Nat × List Char) → List MixItem
  | [] => m
  | (i, v) :: rest => multiRestM (restM i v m) rest

/-- The head of a mix is not a plain segment. -/
def headNotSeg : List MixItem → Prop
  | .seg _ :: _ => False
  | _ => True

/-- Mix-level image of the _protect_glossary_terms loop: the map records
    (index, term) for every term that occurred. -/
def protGoM : List (List Char) → Nat → List MixItem →
    List MixItem × List (Nat × List Char)
  | [], _, m => (m, [])
  | term :: rest, idx, m =>
    if isSubstring term (flatMix m) then
      let r := protGoM rest (idx + 1) (protM term idx m)
      (r.1, (idx, term) :: r.2)
    else protGoM rest (idx + 1) m

instance (s : List Char) : Decidable (phFree s) := by
  unfold phFree
  infer_instance

def max_requests_per_second : Nat := 5

/-- zremrangebyscore 0 (now - 1): drop sorted-set scores in [0, t-1]. -/
def rlClean (z : List Rat) (t : Rat) : List Rat :=
  z.filter (fun s => !(decide (0 ≤ s) && decide (s ≤ t - 1)))

/-- zadd with member str(current_time): the sorted set is keyed by the
    string of the time, so adding a time that is already a member only
    refreshes its score and leaves the set unchanged. -/
def rlAdd (z : List Rat) (t : Rat) : List Rat :=
  if t ∈ z then z else z ++ [t]

/-- One sequential _check_rate_limit attempt at time t. A true fault flag
    injects a Redis error at the first Redis call of the body: the except
    handler logs and returns True, so the call is admitted with the sorted
    set untouched (fail-open). Without a fault: drop scores in [0, t-1],
    count the rest; at or above the cap the source sleeps 0.2 s and
    re-checks (that retry shows up as a later attempt time, so this
    attempt admits nothing); below the cap, zadd str(t) and admit. -/
def check_rate_limit (z : List Rat) (t : Rat) : Bool → List Rat × Bool
  | true => (z, true)
  | false =>
    let z1 := rlClean z t
    if max_requests_per_second ≤ z1.length then (z1, false)
    else (rlAdd z1 t, true)

/-- Run a sequence of attempts (time, fault flag) through the limiter
    sequentially, collecting the times of the admitted calls. -/
def rlRunGo (z adm : List Rat) : List (Rat × Bool) → List Rat × List Rat
  | [] => (z, adm)
  | a :: ts =>
    let r := check_rate_limit z a.1 a.2
    rlRunGo r.1 (if r.2 then adm ++ [a.1] else adm) ts

/-- Sequential limiter run from the empty sorted set. -/
def rlRun (ts : List (Rat × Bool)) : List Rat × List Rat := rlRunGo [] [] ts

/-- Membership in the sliding window (w, w+1]. -/
def inWindow (w a : Rat) : Bool := decide (w < a) && decide (a ≤ w + 1)

/-- Phases of one caller: before the clean+count check, after it
    (carrying the verdict), and finished (admitted or blocked). -/
inductive CPhase where
  | ready
  | checked (ok : Bool)
  | done (admitted : Bool)
deriving Repr, DecidableEq

/-- One micro-step of a caller at time t against the shared sorted set:
    the check (clean + count) and the add are separate Redis operations,
    as in the source, so two callers can interleave between them. -/
def cstep (t : Rat) (z : List Rat) : CPhase → List Rat × CPhase
  | .ready =>
    let z1 := rlClean z t
    (z1, .checked (decide (z1.length < max_requests_per_second)))
  | .checked ok => if ok then (rlAdd z t, .done true) else (z, .done false)
  | .done b => (z, .done b)

/-- Execute a schedule (a list of caller indices); each named caller
    performs its next micro-step, at its own attempt time, on the shared
    sorted set. -/
def runSched (times : List Rat) : List Nat → List Rat × List CPhase →
    List Rat × List CPhase
  | [], st => st
  | cid :: sched, (z, ph) =>
    match ph.get? cid with
    | none => runSched times sched (z, ph)
    | some p =>
      let r := cstep (times.getD cid 0) z p
      runSched times sched (r.1, ph.set cid r.2)

theorem toNat_ofNat_valid (n : Nat) (h : n.isValidChar) :
    (Char.ofNat n).toNat = n := by
  unfold Char.ofNat
  rw [dif_pos h]
  rfl

theorem pyIsWs_false_of_toNat (c : Char)
    (h : ¬(c.toNat = 32 ∨ c.toNat = 9 ∨ c.toNat = 10 ∨ c.toNat = 13 ∨
      c.toNat = 11 ∨ c.toNat = 12)) : pyIsWs c = false := by
  have hne : ∀ d : Char, c.toNat ≠ d.toNat → (c = d) = False := by
    intro d hd
    simp only [eq_iff_iff, iff_false]
    intro he
    exact hd (congrArg Char.toNat he)
  unfold pyIsWs
  push_neg at h
  obtain ⟨h1, h2, h3, h4, h5, h6⟩ := h
  rw [decide_eq_false, decide_eq_false, decide_eq_false, decide_eq_false,
    decide_eq_false, decide_eq_false] <;>
    first
      | rfl
      | (intro he; first
          | exact h1 (congrArg Char.toNat he)
          | exact h2 (congrArg Char.toNat he)
          | exact h3 (congrArg Char.toNat he)
          | exact h4 (congrArg Char.toNat he)
          | exact h5 (congrArg Char.toNat he)
          | exact h6 (congrArg Char.toNat he))

/-- Lower-casing does not change whether a character is whitespace. -/
theorem pyIsWs_lowerChar (c : Char) : pyIsWs (pyLowerChar c) = pyIsWs c := by
  unfold pyLowerChar Char.toLower
  show pyIsWs (if c.toNat ≥ 65 ∧ c.toNat ≤ 90 then Char.ofNat (c.toNat + 32)
    else c) = pyIsWs c
  by_cases hc : c.toNat ≥ 65 ∧ c.toNat ≤ 90
  · obtain ⟨h65, h90⟩ := hc
    rw [if_pos ⟨h65, h90⟩]
    have hv : Nat.isValidChar (c.toNat + 32) := Or.inl (by omega)
    have ht : (Char.ofNat (c.toNat + 32)).toNat = c.toNat + 32 :=
      toNat_ofNat_valid _ hv
    rw [pyIsWs_false_of_toNat, pyIsWs_false_of_toNat]
    · omega
    · omega
  · rw [if_neg hc]

/-- Lower-casing commutes with stripping. -/
theorem pyStrip_pyLower (s : List Char) :
    pyStrip (pyLower s) = pyLower (pyStrip s) := by
  have hcomp : pyIsWs ∘ pyLowerChar = pyIsWs := funext pyIsWs_lowerChar
  unfold pyStrip pyLower
  simp only [List.dropWhile_map, hcomp, List.map_reverse]
  rw [← List.map_reverse, List.dropWhile_map, hcomp]

/-- Leading whitespace does not affect pySplit. -/
theorem pySplit_dropWhile (s : List Char) :
    pySplit (s.dropWhile pyIsWs) = pySplit s := by
  induction s with
  | nil => rfl
  | cons c s ih =>
    by_cases hc : pyIsWs c
    · rw [List.dropWhile_cons_of_pos hc]
      rw [ih]
      show pySplit s = pySplitGo [] (c :: s)
      unfold pySplitGo
      rw [hc]
      rfl
    · rw [List.dropWhile_cons_of_neg hc]

/-- pySplitGo on an all-whitespace tail flushes the current word. -/
theorem pySplitGo_all_ws (t : List Char) (ht : ∀ c ∈ t, pyIsWs c = true) :
    ∀ cur, pySplitGo cur t = if cur = [] then [] else [cur.reverse] := by
  induction t with
  | nil => intro cur; rfl
  | cons c t ih =>
    intro cur
    have hc : pyIsWs c = true := ht c (List.mem_cons_self c t)
    have ht' : ∀ d ∈ t, pyIsWs d = true := fun d hd => ht d (List.mem_cons_of_mem c hd)
    show (if pyIsWs c then
      if cur = [] then pySplitGo [] t else cur.reverse :: pySplitGo [] t
      else pySplitGo (c :: cur) t) = _
    rw [hc]
    simp only [if_true]
    by_cases hcur : cur = []
    · rw [if_pos hcur, if_pos hcur, ih ht' [], if_pos rfl]
    · rw [if_neg hcur, if_neg hcur, ih ht' [], if_pos rfl]

/-- Trailing whitespace does not affect pySplitGo. -/
theorem pySplitGo_append_ws (t : List Char) (ht : ∀ c ∈ t, pyIsWs c = true) :
    ∀ y cur, pySplitGo cur (y ++ t) = pySplitGo cur y := by
  intro y
  induction y with
  | nil =>
    intro cur
    rw [List.nil_append, pySplitGo_all_ws t ht cur]
    rfl
  | cons c y ih =>
    intro cur
    show (if pyIsWs c then
      if cur = [] then pySplitGo [] (y ++ t)
      else cur.reverse :: pySplitGo [] (y ++ t)
      else pySplitGo (c :: cur) (y ++ t)) = _
    simp only [ih]
    rfl

/-- Stripping does not affect pySplit. -/
theorem pySplit_pyStrip (s : List Char) : pySplit (pyStrip s) = pySplit s := by
  unfold pyStrip
  set z := s.dropWhile pyIsWs with hz
  have hdec : z = (z.reverse.dropWhile pyIsWs).reverse ++
      (z.reverse.takeWhile pyIsWs).reverse := by
    rw [← List.reverse_append, List.takeWhile_append_dropWhile, List.reverse_reverse]
  have hws : ∀ c ∈ (z.reverse.takeWhile pyIsWs).reverse, pyIsWs c = true := by
    intro c hc
    rw [List.mem_reverse] at hc
    exact List.mem_takeWhile_imp hc
  calc pySplit (z.reverse.dropWhile pyIsWs).reverse
      = pySplitGo [] ((z.reverse.dropWhile pyIsWs).reverse ++
          (z.reverse.takeWhile pyIsWs).reverse) :=
        (pySplitGo_append_ws _ hws _ []).symm
    _ = pySplit z := by rw [← hdec]; rfl
    _ = pySplit s := pySplit_dropWhile s

/-- C7: cache keys agree for texts differing only in casing/whitespace
    runs, and differ for distinct target languages (concrete witnesses
    from the spec): key("Hello World",en,pt) == key("  hello   world  ",en,pt)
    and key("Hello",en,pt) != key("Hello",en,es). -/
theorem cache_key_normalization :
    (∀ a b s t : List Char, sameWordsCI a b →
      generate_cache_key a s t = generate_cache_key b s t) ∧
    generate_cache_key (("Hello World").toList) (("en").toList) (("pt").toList) =
      generate_cache_key (("  hello   world  ").toList) (("en").toList)
        (("pt").toList) ∧
    generate_cache_key (("Hello").toList) (("en").toList) (("pt").toList) ≠
      generate_cache_key (("Hello").toList) (("en").toList) (("es").toList) := by
  have hkey : ∀ a b s t : List Char, sameWordsCI a b →
      generate_cache_key a s t = generate_cache_key b s t := by
    intro a b s t h
    unfold generate_cache_key
    have hnorm : pySplit (pyLower (pyStrip a)) = pySplit (pyLower (pyStrip b)) := by
      rw [← pyStrip_pyLower, ← pyStrip_pyLower, pySplit_pyStrip, pySplit_pyStrip]
      exact h
    rw [hnorm]
  refine ⟨hkey, ?_, ?_⟩
  · exact hkey _ _ _ _ (by decide)
  · decide

/-- Witness for C7 at concrete inputs: the casing/whitespace hypothesis
    is discharged by evaluation. -/
theorem cache_key_normalization_witness :
    generate_cache_key (("The CAT sat").toList) (("en").toList) (("pt").toList) =
      generate_cache_key ((" the cat   SAT  ").toList) (("en").toList)
        (("pt").toList) :=
  cache_key_normalization.1 _ _ _ _ (by decide)

theorem dbQueryHash_append (xs ys : List CacheEntry) (h : List Char) :
    dbQueryHash (xs ++ ys) h =
      match dbQueryHash xs h with
      | some e => some e
      | none => dbQueryHash ys h := by
  induction xs with
  | nil => rfl
  | cons e xs ih =>
    show (if e.text_hash = h then some e else dbQueryHash (xs ++ ys) h) = _
    by_cases he : e.text_hash = h
    · rw [if_pos he]
      show _ = (match (if e.text_hash = h then some e else dbQueryHash xs h) with
        | some e => some e | none => dbQueryHash ys h)
      rw [if_pos he]
    · rw [if_neg he, ih]
      show _ = (match (if e.text_hash = h then some e else dbQueryHash xs h) with
        | some e => some e | none => dbQueryHash ys h)
      rw [if_neg he]

theorem dbQueryHash_none_iff (db : List CacheEntry) (h : List Char) :
    dbQueryHash db h = none ↔ ∀ e ∈ db, e.text_hash ≠ h := by
  induction db with
  | nil => simp [dbQueryHash]
  | cons e db ih =>
    show (if e.text_hash = h then some e else dbQueryHash db h) = none ↔ _
    by_cases he : e.text_hash = h
    · rw [if_pos he]
      simp only [reduceCtorEq, false_iff, not_forall]
      exact ⟨e, List.mem_cons_self e db, not_not.mpr he⟩
    · rw [if_neg he, ih]
      constructor
      · intro hall e' he'
        rcases List.mem_cons.mp he' with rfl | hm
        · exact he
        · exact hall e' hm
      · intro hall e' he'
        exact hall e' (List.mem_cons_of_mem e he')

/-- C3: storing the same (text, source, target) twice yields exactly one
    durable entry; the second call returns the first entry unchanged and
    changes nothing; stores create entries with hit_count = 0 and never
    modify pre-existing entries (so no store changes a hit counter — only
    lookups increment it). -/
theorem save_to_cache_idempotent (st : CacheState) (o tr s t : List Char)
    (hfresh : dbQueryHash st.db (generate_cache_key o s t) = none) :
    (save_to_cache (save_to_cache st o tr s t).1 o tr s t).2 =
      (save_to_cache st o tr s t).2 ∧
    (save_to_cache (save_to_cache st o tr s t).1 o tr s t).1 =
      (save_to_cache st o tr s t).1 ∧
    ((save_to_cache st o tr s t).1.db.filter
      (fun e => e.text_hash = generate_cache_key o s t)).length = 1 ∧
    (save_to_cache st o tr s t).2.hit_count = 0 ∧
    (∀ st1 o1 tr1 s1 t1, ∀ e ∈ st1.db,
      e ∈ (save_to_cache st1 o1 tr1 s1 t1).1.db) := by
  have hmem : ∀ st1 o1 tr1 s1 t1, ∀ e ∈ st1.db,
      e ∈ (save_to_cache st1 o1 tr1 s1 t1).1.db := by
    intro st1 o1 tr1 s1 t1 e he
    simp only [save_to_cache]
    cases hq : dbQueryHash st1.db (generate_cache_key o1 s1 t1) with
    | some ex => exact he
    | none => exact List.mem_append_left _ he
  have hsave1 : save_to_cache st o tr s t =
      ({ db := st.db ++ [⟨st.nextId, generate_cache_key o s t, o, tr, s, t, 0⟩],
         redis := redisSet st.redis (generate_cache_key o s t) ⟨tr, st.nextId, 0⟩,
         nextId := st.nextId + 1 },
       ⟨st.nextId, generate_cache_key o s t, o, tr, s, t, 0⟩) := by
    simp only [save_to_cache, hfresh]
  have hq2 : dbQueryHash
      (st.db ++ [⟨st.nextId, generate_cache_key o s t, o, tr, s, t, 0⟩])
      (generate_cache_key o s t) =
      some ⟨st.nextId, generate_cache_key o s t, o, tr, s, t, 0⟩ := by
    rw [dbQueryHash_append, hfresh]
    simp [dbQueryHash]
  have hsave2 : save_to_cache (save_to_cache st o tr s t).1 o tr s t =
      ((save_to_cache st o tr s t).1,
        ⟨st.nextId, generate_cache_key o s t, o, tr, s, t, 0⟩) := by
    rw [hsave1]
    simp only [save_to_cache, hq2]
  refine ⟨?_, ?_, ?_, ?_, hmem⟩
  · rw [hsave2, hsave1]
  · rw [hsave2]
  · rw [hsave1]
    simp only [List.filter_append]
    have hnil : st.db.filter
        (fun e => decide (e.text_hash = generate_cache_key o s t)) = [] := by
      rw [List.filter_eq_nil_iff]
      intro e he
      simp only [decide_eq_true_eq]
      exact (dbQueryHash_none_iff st.db _).mp hfresh e he
    rw [hnil]
    simp
  · rw [hsave1]

/-- C9 counterexample: with the durable row present and the hit-count
    commit failing, get_from_cache still returns the hit — it is not
    reported as a miss, refuting the claim that a failed hit-count commit
    degrades to None (re-billing the chunk). -/
theorem cache_lookup_commit_fail_cx :
    (get_from_cache ⟨true, true, true, false⟩ c9state
      (("a").toList) (("en").toList) (("pt").toList)).1 =
      some ⟨("b").toList, 0, false, 0⟩ := by decide

/-- C9 (amended): lookup is total and degrades rather than failing: an
    unreachable volatile tier plus a failing durable SELECT yields a miss
    with the state unchanged; a failing hit-count commit never changes the
    durable rows; and with a failing commit the lookup still returns the
    durable hit (with the un-incremented counter) instead of a miss. -/
theorem cache_lookup_degrades :
    (∀ (f : Faults) (st : CacheState) (a s t : List Char),
      f.redisGetOk = false → f.dbQueryOk = false →
      get_from_cache f st a s t = (none, st)) ∧
    (∀ (f : Faults) (st : CacheState) (a s t : List Char),
      f.dbCommitOk = false → (get_from_cache f st a s t).2.db = st.db) ∧
    (∀ (st : CacheState) (a s t : List Char) (e1 : CacheEntry),
      dbQueryFull st.db (generate_cache_key a s t) s t = some e1 →
      (get_from_cache ⟨false, true, true, false⟩ st a s t).1 =
        some ⟨e1.translated_text, e1.id, false, e1.hit_count⟩) := by
  refine ⟨?_, ?_, ?_⟩
  · intro f st a s t h1 h2
    simp [get_from_cache, h1, h2]
  · intro f st a s t h1
    simp only [get_from_cache, h1]
    cases hr : (if f.redisGetOk then
        redisLookup st.redis (generate_cache_key a s t) else none) with
    | some v => rfl
    | none =>
      cases hq : f.dbQueryOk with
      | false => rfl
      | true =>
        cases hdb : dbQueryFull st.db (generate_cache_key a s t) s t with
        | some e => simp
        | none => rfl
  · intro st a s t e1 hdb
    simp [get_from_cache, hdb]

/-- Witness for C3 at a concrete input: double store into the empty cache. -/
theorem save_to_cache_idempotent_witness :
    (save_to_cache
      (save_to_cache ⟨[], [], 0⟩ (("a").toList) (("b").toList)
        (("en").toList) (("pt").toList)).1
      (("a").toList) (("b").toList) (("en").toList) (("pt").toList)).2 =
      (save_to_cache ⟨[], [], 0⟩ (("a").toList) (("b").toList)
        (("en").toList) (("pt").toList)).2 :=
  (save_to_cache_idempotent ⟨[], [], 0⟩ _ _ _ _ rfl).1

/-- Witness for C9's amended theorem at a concrete input: the durable-hit
    hypothesis is discharged by evaluation. -/
theorem cache_lookup_degrades_witness :
    (get_from_cache ⟨false, true, true, false⟩ c9state
      (("a").toList) (("en").toList) (("pt").toList)).1 =
      some ⟨("b").toList, 0, false, 0⟩ :=
  cache_lookup_degrades.2.2 c9state (("a").toList) (("en").toList)
    (("pt").toList)
    ⟨0, generate_cache_key (("a").toList) (("en").toList) (("pt").toList),
      ("a").toList, ("b").toList, ("en").toList, ("pt").toList, 0⟩
    (by decide)

/-- C5: with the provider failing on attempts 0 and 1 and succeeding on
    attempt 2, translate_text returns the success, makes exactly 3 calls,
    and sleeps the strictly increasing backoff sequence
    multiplier^0 < multiplier^1 between attempts; with all three attempts
    failing it raises the terminal error wrapping the last failure after
    the same 3 calls and backoff sleeps. -/
theorem retry_backoff :
    (∀ (provider : Nat → Except (List Char) (List Char))
      (text target : List Char) (src : Option (List Char)) (e0 e1 t2 : List Char),
      ¬(text = [] ∨ pyStrip text = []) →
      ¬(max_chars_per_request < text.length) →
      provider 0 = .error e0 → provider 1 = .error e1 → provider 2 = .ok t2 →
      (translate_text provider text target src []).result = .ok t2 ∧
      (translate_text provider text target src []).calls.length = 3 ∧
      (translate_text provider text target src []).delays =
        [backoff_multiplier ^ 0, backoff_multiplier ^ 1] ∧
      backoff_multiplier ^ 0 < backoff_multiplier ^ 1) ∧
    (∀ (provider : Nat → Except (List Char) (List Char))
      (text target : List Char) (src : Option (List Char)) (e0 e1 e2 : List Char),
      ¬(text = [] ∨ pyStrip text = []) →
      ¬(max_chars_per_request < text.length) →
      provider 0 = .error e0 → provider 1 = .error e1 → provider 2 = .error e2 →
      (translate_text provider text target src []).result = .terminal e2 ∧
      (translate_text provider text target src []).calls.length = 3 ∧
      (translate_text provider text target src []).delays =
        [backoff_multiplier ^ 0, backoff_multiplier ^ 1]) := by
  constructor
  · intro provider text target src e0 e1 t2 hne hsize hp0 hp1 hp2
    have : translate_text provider text target src [] =
        ⟨.ok t2,
         [⟨text, pyUpper target, src.map pyUpper⟩,
          ⟨text, pyUpper target, src.map pyUpper⟩,
          ⟨text, pyUpper target, src.map pyUpper⟩],
         [backoff_multiplier ^ 0, backoff_multiplier ^ 1]⟩ := by
      simp only [translate_text, if_neg hne, if_neg hsize, retry_attempts]
      simp only [translateGo, hp0, hp1, hp2]
      simp
    rw [this]
    refine ⟨rfl, rfl, rfl, by decide⟩
  · intro provider text target src e0 e1 e2 hne hsize hp0 hp1 hp2
    have : translate_text provider text target src [] =
        ⟨.terminal e2,
         [⟨text, pyUpper target, src.map pyUpper⟩,
          ⟨text, pyUpper target, src.map pyUpper⟩,
          ⟨text, pyUpper target, src.map pyUpper⟩],
         [backoff_multiplier ^ 0, backoff_multiplier ^ 1]⟩ := by
      simp only [translate_text, if_neg hne, if_neg hsize, retry_attempts]
      simp only [translateGo, hp0, hp1, hp2]
      simp
    rw [this]
    exact ⟨rfl, rfl, rfl⟩

/-- Witness for C5 at a concrete provider and input. -/
theorem retry_backoff_witness :
    (translate_text failTwiceProvider (("hi").toList) (("pt").toList) none
      []).result = .ok (("done").toList) ∧
    (translate_text failTwiceProvider (("hi").toList) (("pt").toList) none
      []).calls.length = 3 ∧
    (translate_text failTwiceProvider (("hi").toList) (("pt").toList) none
      []).delays = [backoff_multiplier ^ 0, backoff_multiplier ^ 1] ∧
    backoff_multiplier ^ 0 < backoff_multiplier ^ 1 :=
  retry_backoff.1 failTwiceProvider (("hi").toList) (("pt").toList) none
    (("boom").toList) (("boom").toList) (("done").toList)
    (by decide) (by decide) rfl rfl rfl

theorem translateGo_calls_shape
    (provider : Nat → Except (List Char) (List Char))
    (ptext target : List Char) (src : Option (List Char))
    (terms : List (List Char × List Char)) :
    ∀ (rem attempt : Nat) (calls : List ProviderCall) (delays : List Nat)
      (c : ProviderCall),
      c ∈ (translateGo provider ptext target src terms attempt rem calls
        delays).calls →
      c ∈ calls ∨ c = ⟨ptext, target, src⟩ := by
  intro rem
  induction rem with
  | zero => intro attempt calls delays c hc; exact Or.inl hc
  | succ n ih =>
    intro attempt calls delays c hc
    match n, hc with
    | 0, hc =>
      simp only [translateGo] at hc
      cases hp : provider attempt with
      | ok t =>
        rw [hp] at hc
        rcases List.mem_append.mp hc with h | h
        · exact Or.inl h
        · exact Or.inr (List.mem_singleton.mp h)
      | error e =>
        rw [hp] at hc
        rcases List.mem_append.mp hc with h | h
        · exact Or.inl h
        · exact Or.inr (List.mem_singleton.mp h)
    | m + 1, hc =>
      simp only [translateGo] at hc
      cases hp : provider attempt with
      | ok t =>
        rw [hp] at hc
        rcases List.mem_append.mp hc with h | h
        · exact Or.inl h
        · exact Or.inr (List.mem_singleton.mp h)
      | error e =>
        rw [hp] at hc
        rcases ih (attempt + 1) _ _ c hc with h | h
        · rcases List.mem_append.mp h with h1 | h1
          · exact Or.inl h1
          · exact Or.inr (List.mem_singleton.mp h1)
        · exact Or.inr h

/-- C10: key normalization never touches the language codes — the same
    pair in different casings produces different keys — even though the
    provider client upper-cases the codes on every provider call; hence a
    lookup under "EN"/"PT" misses the entry cached under "en"/"pt". -/
theorem lang_code_casing :
    generate_cache_key (("hello").toList) (("en").toList) (("pt").toList) ≠
      generate_cache_key (("hello").toList) (("EN").toList) (("PT").toList) ∧
    (∀ (provider : Nat → Except (List Char) (List Char))
      (text target : List Char) (src : Option (List Char))
      (g : List (List Char × List Char)) (c : ProviderCall),
      c ∈ (translate_text provider text target src g).calls →
      c.ptarget = pyUpper target ∧ c.psource = src.map pyUpper) ∧
    (get_from_cache noFaults c10state (("hello").toList) (("EN").toList)
      (("PT").toList)).1 = none := by
  refine ⟨by decide, ?_, by decide⟩
  intro provider text target src g c hc
  unfold translate_text at hc
  by_cases h1 : text = [] ∨ pyStrip text = []
  · rw [if_pos h1] at hc
    exact absurd hc (List.not_mem_nil c)
  · rw [if_neg h1] at hc
    by_cases h2 : max_chars_per_request < text.length
    · rw [if_pos h2] at hc
      exact absurd hc (List.not_mem_nil c)
    · rw [if_neg h2] at hc
      rcases translateGo_calls_shape provider _ _ _ _ _ _ _ _ c hc with h | h
      · exact absurd h (List.not_mem_nil c)
      · rw [h]
        exact ⟨rfl, rfl⟩

/-- Witness for C10's provider-call conjunct at a concrete call. -/
theorem lang_code_casing_witness :
    (⟨("hi").toList, ("PT").toList, (none : Option (List Char))⟩ :
      ProviderCall).ptarget = pyUpper (("pt").toList) ∧
    (⟨("hi").toList, ("PT").toList, (none : Option (List Char))⟩ :
      ProviderCall).psource = (none : Option (List Char)).map pyUpper :=
  lang_code_casing.2.1 (fun _ => .ok (("x").toList)) (("hi").toList)
    (("pt").toList) none [] ⟨("hi").toList, ("PT").toList, none⟩ (by decide)

/-- C1 counterexample: the second job's single chunk does resolve with
    from_cache = true, zero characters billed and the full length saved,
    but the durable entry's hit counter is still 0 after the second job —
    the same value as after the first job, not one higher: the lookup was
    served by the Redis mirror written by save_to_cache, which never
    touches the durable counter. -/
theorem second_job_hit_count_cx :
    catRun1.cache.db.map (fun e => e.hit_count) = [0] ∧
    catRun2.chunks.map (fun c => c.from_cache) = [true] ∧
    catRun2.translation.credits_used = 0 ∧
    catRun2.translation.credits_saved = 12 ∧
    catRun2.cache.db.map (fun e => e.hit_count) = [0] := by decide

/-- C1 (amended): the second job resolves its single chunk from cache,
    bills zero characters and credits the full 12 as saved; the durable
    hit counter is incremented only when the volatile tier misses — it
    stays 0 while the first job's Redis mirror is live, and rises to
    exactly 1 when the lookup must fall through to the durable tier. -/
theorem second_job_cache_hit :
    catRun2.chunks.map (fun c => c.from_cache) = [true] ∧
    catRun2.translation.credits_used = 0 ∧
    catRun2.translation.credits_saved = 12 ∧
    catRun2.translation.status = TranslationStatus.completed ∧
    catRun2.cache.db.map (fun e => e.hit_count) = [0] ∧
    catRun2Durable.chunks.map (fun c => c.from_cache) = [true] ∧
    catRun2Durable.translation.credits_used = 0 ∧
    catRun2Durable.translation.credits_saved = 12 ∧
    catRun2Durable.cache.db.map (fun e => e.hit_count) = [1] := by decide

/-- C6 counterexample: process_translation does not guard terminal
    states — invoked on a completed job (with a failing provider and an
    empty cache) it commits PROCESSING and ends with the job FAILED,
    moving it out of the terminal completed state. -/
theorem terminal_not_absorbing_cx :
    doneJob.status = TranslationStatus.completed ∧
    (process_translation noFaults (fun _ => .error (("boom").toList))
      ⟨[], [], 0⟩ doneJob [((("a").toList), 0)] 0).statusTrace =
      [TranslationStatus.processing, TranslationStatus.failed] ∧
    (process_translation noFaults (fun _ => .error (("boom").toList))
      ⟨[], [], 0⟩ doneJob [((("a").toList), 0)] 0).translation.status =
      TranslationStatus.failed := by decide

/-- C6 (amended): within a single run the committed statuses follow
    processing → completed or processing → failed, and the run ends in
    the terminal state it reports; the pending → processing edge is taken
    unconditionally, so nothing stops a re-invocation on a terminal job
    from re-entering processing. -/
theorem status_transitions (f : Faults)
    (tr : List Char → Except (List Char) (List Char)) (st : CacheState)
    (t : Translation) (chunks : List (List Char × Nat)) (user : Int) :
    ((process_translation f tr st t chunks user).statusTrace =
        [TranslationStatus.processing, TranslationStatus.completed] ∧
      (process_translation f tr st t chunks user).translation.status =
        TranslationStatus.completed) ∨
    ((process_translation f tr st t chunks user).statusTrace =
        [TranslationStatus.processing, TranslationStatus.failed] ∧
      (process_translation f tr st t chunks user).translation.status =
        TranslationStatus.failed) := by
  cases h : processChunksGo f tr t.source_language t.target_language
      chunks.length chunks 0 ⟨st, 0, 0, [], t.progress⟩ with
  | ok ls =>
    left
    constructor <;> simp [process_translation, h]
  | error pr =>
    right
    constructor <;> simp [process_translation, h]

/-- Every chunk adds its character count to exactly one of the two
    counters: on success the loop's billed + saved totals grow by the sum
    of the chunk lengths. -/
theorem processChunksGo_sum (f : Faults)
    (tr : List Char → Except (List Char) (List Char)) (src tgt : List Char)
    (total : Nat) :
    ∀ (chunks : List (List Char × Nat)) (idx : Nat) (ls ls' : LoopState),
      processChunksGo f tr src tgt total chunks idx ls = .ok ls' →
      ls'.total_translated_chars + ls'.cached_chars =
        ls.total_translated_chars + ls.cached_chars +
          (chunks.map (fun c => c.1.length)).sum := by
  intro chunks
  induction chunks with
  | nil =>
    intro idx ls ls' h
    injection h with h
    rw [← h]
    simp
  | cons ch rest ih =>
    intro idx ls ls' h
    obtain ⟨ctext, corder⟩ := ch
    simp only [processChunksGo] at h
    cases hl : (get_from_cache f ls.cache ctext src tgt).1 with
    | some hit =>
      rw [hl] at h
      have := ih (idx + 1) _ _ h
      simp only [List.map_cons, List.sum_cons] at this ⊢
      simp only [this]
      omega
    | none =>
      rw [hl] at h
      cases htr : tr ctext with
      | error e => rw [htr] at h; exact absurd h (by simp)
      | ok translated =>
        rw [htr] at h
        have := ih (idx + 1) _ _ h
        simp only [List.map_cons, List.sum_cons] at this ⊢
        simp only [this]
        omega

/-- C4: a non-preview job that reaches completed satisfies
    billed + saved = total characters, and the owner's balance is
    decremented by exactly the billed characters. -/
theorem credit_conservation (f : Faults)
    (tr : List Char → Except (List Char) (List Char)) (st : CacheState)
    (t : Translation) (chunks : List (List Char × Nat)) (user : Int)
    (hp : t.is_preview = false)
    (hsum : (chunks.map (fun c => c.1.length)).sum = t.total_characters)
    (hdone : (process_translation f tr st t chunks user).translation.status =
      TranslationStatus.completed) :
    (process_translation f tr st t chunks user).translation.credits_used +
      (process_translation f tr st t chunks user).translation.credits_saved =
      t.total_characters ∧
    (process_translation f tr st t chunks user).user_credits =
      user - ((process_translation f tr st t chunks user).translation.credits_used
        : Int) := by
  cases h : processChunksGo f tr t.source_language t.target_language
      chunks.length chunks 0 ⟨st, 0, 0, [], t.progress⟩ with
  | ok ls =>
    have hsum2 := processChunksGo_sum f tr t.source_language t.target_language
      chunks.length chunks 0 _ _ h
    simp only [LoopState.total_translated_chars, LoopState.cached_chars,
      Nat.zero_add] at hsum2
    constructor
    · simp only [process_translation, h]
      simp only [hsum2, hsum]
    · simp only [process_translation, h]
      simp [hp]
  | error pr =>
    exfalso
    simp only [process_translation, h] at hdone
    simp at hdone

/-- Witness for C4 at a concrete job: two chunks, one of which repeats
    and is served from the cache written for the first. -/
theorem credit_conservation_witness :
    (process_translation noFaults (fun _ => .ok (("x").toList)) ⟨[], [], 0⟩
      ⟨("en").toList, ("pt").toList, false, 4, .pending, 0, 0, 0, none⟩
      [((("ab").toList), 0), ((("ab").toList), 1)]
      50).translation.credits_used +
      (process_translation noFaults (fun _ => .ok (("x").toList)) ⟨[], [], 0⟩
        ⟨("en").toList, ("pt").toList, false, 4, .pending, 0, 0, 0, none⟩
        [((("ab").toList), 0), ((("ab").toList), 1)]
        50).translation.credits_saved = 4 ∧
    (process_translation noFaults (fun _ => .ok (("x").toList)) ⟨[], [], 0⟩
      ⟨("en").toList, ("pt").toList, false, 4, .pending, 0, 0, 0, none⟩
      [((("ab").toList), 0), ((("ab").toList), 1)]
      50).user_credits =
      50 - ((process_translation noFaults (fun _ => .ok (("x").toList))
        ⟨[], [], 0⟩
        ⟨("en").toList, ("pt").toList, false, 4, .pending, 0, 0, 0, none⟩
        [((("ab").toList), 0), ((("ab").toList), 1)]
        50).translation.credits_used : Int) :=
  credit_conservation noFaults (fun _ => .ok (("x").toList)) ⟨[], [], 0⟩
    ⟨("en").toList, ("pt").toList, false, 4, .pending, 0, 0, 0, none⟩
    [((("ab").toList), 0), ((("ab").toList), 1)] 50
    rfl (by decide) (by decide)

/-- C2 counterexample: restore replaces the placeholder by the glossary
    VALUE (the required rendering), not the protected source term, so
    protecting "cat" with the glossary entry cat -> gato and restoring
    yields "gato", not the original text. -/
theorem glossary_round_trip_cx :
    restore_glossary_terms
      (protect_glossary_terms (("cat").toList)
        [((("cat").toList), (("gato").toList))]).1
      (protect_glossary_terms (("cat").toList)
        [((("cat").toList), (("gato").toList))]).2 = ("gato").toList ∧
    ¬ (restore_glossary_terms
      (protect_glossary_terms (("cat").toList)
        [((("cat").toList), (("gato").toList))]).1
      (protect_glossary_terms (("cat").toList)
        [((("cat").toList), (("gato").toList))]).2 = ("cat").toList) := by
  constructor
  · decide
  · decide

/-- Decidable facts about the ten placeholder tokens. -/
theorem placeholder_facts :
    (∀ i, i < 10 → (placeholder i).length = 15) ∧
    (∀ i, i < 10 → (placeholder i).all phChar = true) ∧
    (∀ i, i < 10 → placeholder i = 'G' :: (placeholder i).tail) ∧
    (∀ i, i < 10 → ∀ c ∈ (placeholder i).tail, c ≠ 'G') ∧
    (∀ i, i < 10 → ∀ j, j < 10 → placeholder i = placeholder j → i = j) := by
  refine ⟨by decide, by decide, by decide, by decide, by decide⟩

theorem flatMix_append (a b : List MixItem) :
    flatMix (a ++ b) = flatMix a ++ flatMix b := by
  induction a with
  | nil => rfl
  | cons it a ih =>
    cases it with
    | seg u =>
      simp only [List.cons_append, flatMix, List.append_eq, ih,
        List.append_assoc]
    | hole i =>
      simp only [List.cons_append, flatMix, List.append_eq, ih,
        List.append_assoc]

theorem replGo_nil (p r : List Char) (k : Nat) : replGo p r k [] = [] := by
  cases k <;> rfl

/-- Consuming a skip counter equal to the length of a prefix. -/
theorem replGo_skip (p r : List Char) :
    ∀ (w s : List Char) (k : Nat), w.length = k →
      replGo p r k (w ++ s) = replGo p r 0 s := by
  intro w
  induction w with
  | nil =>
    intro s k hk
    subst hk
    rfl
  | cons c w ih =>
    intro s k hk
    subst hk
    show replGo p r (w.length + 1) (c :: (w ++ s)) = _
    show replGo p r w.length (w ++ s) = _
    exact ih s w.length rfl

/-- Stepping over a region that cannot start a match. -/
theorem replGo_no_head (h : Char) (p' r : List Char) :
    ∀ (w s : List Char), (∀ c ∈ w, c ≠ h) →
      replGo (h :: p') r 0 (w ++ s) = w ++ replGo (h :: p') r 0 s := by
  intro w
  induction w with
  | nil => intro s _; rfl
  | cons c w ih =>
    intro s hw
    have hne : ¬ (h :: p').isPrefixOf (c :: (w ++ s)) = true := by
      intro hpre
      have := List.isPrefixOf_iff_prefix.mp hpre
      have hhead : h = c := (List.cons_prefix_cons.mp this).1
      exact hw c (List.mem_cons_self c w) hhead.symm
    show (if (h :: p').isPrefixOf (c :: (w ++ s)) then _ else _) = _
    rw [if_neg hne]
    simp only [List.append_eq]
    rw [ih s (fun d hd => hw d (List.mem_cons_of_mem c hd))]
    rfl

/-- A placeholder-free pattern cannot match across a boundary whose right
    side starts with a placeholder character. -/
theorem prefix_transfer (p : List Char) (hp : ∀ c ∈ p, phChar c = false)
    (b : List Char)
    (hb : b = [] ∨ ∃ d b1, b = d :: b1 ∧ phChar d = true) :
    ∀ a : List Char, p <+: a ++ b → p <+: a := by
  induction p with
  | nil => intro a _; exact List.nil_prefix
  | cons x p ih =>
    intro a hpre
    cases a with
    | nil =>
      exfalso
      rcases hb with rfl | ⟨d, b1, rfl, hd⟩
      · simp at hpre
      · rw [List.nil_append] at hpre
        have hx : x = d := (List.cons_prefix_cons.mp hpre).1
        have hfx := hp x (List.mem_cons_self x p)
        rw [hx, hd] at hfx
        exact absurd hfx (by decide)
    | cons y a1 =>
      rw [List.cons_append] at hpre
      obtain ⟨hxy, htail⟩ := List.cons_prefix_cons.mp hpre
      exact List.cons_prefix_cons.mpr
        ⟨hxy, ih (fun c hc => hp c (List.mem_cons_of_mem x hc)) a1 htail⟩

/-- A prefix of an append that fits in the left part is a prefix of it. -/
theorem prefix_take_left (p a b : List Char) (hpre : p <+: a ++ b)
    (hlen : p.length ≤ a.length) : p <+: a := by
  obtain ⟨t, ht⟩ := hpre
  have h1 : p = (a ++ b).take p.length := by
    rw [← ht, List.take_left]
  have h2 : (a ++ b).take p.length = a.take p.length := by
    rw [List.take_append_eq_append_take, Nat.sub_eq_zero_of_le hlen]
    simp
  rw [h1, h2]
  exact List.take_prefix _ _

/-- Replacement distributes over a boundary that no match can cross:
    the right side is empty or starts with a placeholder character while
    the pattern is placeholder-free. -/
theorem replGo_split (p r : List Char)
    (hpf : ∀ c ∈ p, phChar c = false) (b : List Char)
    (hb : b = [] ∨ ∃ d b1, b = d :: b1 ∧ phChar d = true) :
    ∀ (u : List Char) (k : Nat), k ≤ u.length →
      replGo p r k (u ++ b) = replGo p r k u ++ replGo p r 0 b := by
  intro u
  induction u with
  | nil =>
    intro k hk
    have : k = 0 := Nat.le_zero.mp hk
    subst this
    rw [List.nil_append]
    rfl
  | cons c u ih =>
    intro k hk
    cases k with
    | zero =>
      by_cases hpre : p.isPrefixOf (c :: (u ++ b)) = true
      · have hpre' : p <+: (c :: u) ++ b := by
          rw [List.cons_append]
          exact List.isPrefixOf_iff_prefix.mp hpre
        have hpu : p <+: c :: u := prefix_transfer p hpf b hb (c :: u) hpre'
        have hpreu : p.isPrefixOf (c :: u) = true :=
          List.isPrefixOf_iff_prefix.mpr hpu
        have hlen : p.length - 1 ≤ u.length := by
          have := hpu.length_le
          simp only [List.length_cons] at this
          omega
        show (if p.isPrefixOf (c :: (u ++ b)) then
          r ++ replGo p r (p.length - 1) (u ++ b)
          else c :: replGo p r 0 (u ++ b)) = _
        rw [if_pos hpre]
        show _ = (if p.isPrefixOf (c :: u) then
          r ++ replGo p r (p.length - 1) u
          else c :: replGo p r 0 u) ++ replGo p r 0 b
        rw [if_pos hpreu, ih (p.length - 1) hlen, List.append_assoc]
      · have hpreu : ¬ p.isPrefixOf (c :: u) = true := by
          intro hx
          exact hpre (List.isPrefixOf_iff_prefix.mpr
            (by
              have := List.isPrefixOf_iff_prefix.mp hx
              have h2 : p <+: (c :: u) ++ b := this.trans (List.prefix_append _ _)
              rw [List.cons_append] at h2
              exact h2))
        show (if p.isPrefixOf (c :: (u ++ b)) then
          r ++ replGo p r (p.length - 1) (u ++ b)
          else c :: replGo p r 0 (u ++ b)) = _
        rw [if_neg hpre]
        show _ = (if p.isPrefixOf (c :: u) then
          r ++ replGo p r (p.length - 1) u
          else c :: replGo p r 0 u) ++ replGo p r 0 b
        rw [if_neg hpreu, ih 0 (Nat.zero_le _), List.cons_append]
    | succ k =>
      have hk2 : k ≤ u.length := by
        simp only [List.length_cons] at hk
        omega
      show replGo p r k (u ++ b) = replGo p r k u ++ replGo p r 0 b
      exact ih k hk2

theorem flatMix_consSeg (c : Char) (m : List MixItem) :
    flatMix (consSeg c m) = c :: flatMix m := by
  cases m with
  | nil => rfl
  | cons it m => cases it <;> rfl

/-- Flattening a split reproduces the string-level replacement. -/
theorem flatMix_splitRepGo (t : List Char) (i : Nat) :
    ∀ (u : List Char) (k : Nat),
      flatMix (splitRepGo t i k u) = replGo t (placeholder i) k u := by
  intro u
  induction u with
  | nil => intro k; cases k <;> rfl
  | cons c u ih =>
    intro k
    cases k with
    | zero =>
      by_cases hpre : t.isPrefixOf (c :: u) = true
      · show flatMix (if t.isPrefixOf (c :: u) then
            MixItem.hole i :: splitRepGo t i (t.length - 1) u
            else consSeg c (splitRepGo t i 0 u)) = _
        rw [if_pos hpre]
        show placeholder i ++ flatMix (splitRepGo t i (t.length - 1) u) = _
        rw [ih (t.length - 1)]
        show _ = (if t.isPrefixOf (c :: u) then
          placeholder i ++ replGo t (placeholder i) (t.length - 1) u
          else c :: replGo t (placeholder i) 0 u)
        rw [if_pos hpre]
      · show flatMix (if t.isPrefixOf (c :: u) then
            MixItem.hole i :: splitRepGo t i (t.length - 1) u
            else consSeg c (splitRepGo t i 0 u)) = _
        rw [if_neg hpre, flatMix_consSeg, ih 0]
        show _ = (if t.isPrefixOf (c :: u) then
          placeholder i ++ replGo t (placeholder i) (t.length - 1) u
          else c :: replGo t (placeholder i) 0 u)
        rw [if_neg hpre]
    | succ k =>
      show flatMix (splitRepGo t i k u) = replGo t (placeholder i) k u
      exact ih k

theorem altOK_tail (x : MixItem) (m : List MixItem) (h : altOK (x :: m)) :
    altOK m := by
  cases x with
  | seg u =>
    cases m with
    | nil => trivial
    | cons y m1 =>
      cases y with
      | seg v => exact absurd h id
      | hole j => exact h
  | hole i => exact h

theorem placeholder_head (j : Nat) :
    placeholder j = 'G' :: ((("LOSSARY_TERM_").toList) ++ (Nat.repr j).toList) :=
  rfl

/-- Protection (replacing a placeholder-free term t by hole i) factors
    through the mix structure. -/
theorem flatMix_protM (t : List Char) (i : Nat) (ht0 : t ≠ [])
    (htf : ∀ c ∈ t, phChar c = false) :
    ∀ m : List MixItem, mixOK m → altOK m →
      replGo t (placeholder i) 0 (flatMix m) = flatMix (protM t i m) := by
  intro m
  induction m with
  | nil => intro _ _; rfl
  | cons it m ih =>
    intro hOK hAlt
    have hOKm : mixOK m := fun x hx => hOK x (List.mem_cons_of_mem _ hx)
    have hAltm : altOK m := altOK_tail it m hAlt
    cases it with
    | seg u =>
      show replGo t (placeholder i) 0 (u ++ flatMix m) =
        flatMix (splitRepGo t i 0 u ++ protM t i m)
      have hb : flatMix m = [] ∨
          ∃ d b1, flatMix m = d :: b1 ∧ phChar d = true := by
        cases m with
        | nil => exact Or.inl rfl
        | cons y m1 =>
          cases y with
          | seg v => exact absurd hAlt id
          | hole j =>
            right
            refine ⟨'G', (("LOSSARY_TERM_").toList) ++ (Nat.repr j).toList ++
              flatMix m1, ?_, by decide⟩
            show placeholder j ++ flatMix m1 = _
            rw [placeholder_head]
            simp [List.append_assoc]
      rw [replGo_split t (placeholder i) htf (flatMix m) hb u 0 (Nat.zero_le _),
        flatMix_append, flatMix_splitRepGo, ih hOKm hAltm]
    | hole j =>
      have hj : j < 10 := hOK (.hole j) (List.mem_cons_self _ _)
      show replGo t (placeholder i) 0 (placeholder j ++ flatMix m) =
        placeholder j ++ flatMix (protM t i m)
      cases t with
      | nil => exact absurd rfl ht0
      | cons hd tl =>
        have hall : ∀ c ∈ placeholder j, c ≠ hd := by
          intro c hc he
          have hcP : phChar c = true := by
            have := placeholder_facts.2.1 j hj
            exact List.all_eq_true.mp this c hc
          have hhd : phChar hd = false := htf hd (List.mem_cons_self _ _)
          rw [he, hhd] at hcP
          exact absurd hcP (by decide)
        rw [replGo_no_head hd tl (placeholder i) (placeholder j) (flatMix m)
          hall, ih hOKm hAltm]

/-- Restoration (replacing the placeholder of hole i by v) factors
    through the mix structure. -/
theorem flatMix_restM (i : Nat) (hi : i < 10) (v : List Char) :
    ∀ m : List MixItem, mixOK m →
      replGo (placeholder i) v 0 (flatMix m) = flatMix (restM i v m) := by
  intro m
  induction m with
  | nil => intro _; rfl
  | cons it m ih =>
    intro hOK
    have hOKm : mixOK m := fun x hx => hOK x (List.mem_cons_of_mem _ hx)
    cases it with
    | seg u =>
      have hu : phFree u := hOK (.seg u) (List.mem_cons_self _ _)
      have hall : ∀ c ∈ u, c ≠ 'G' := by
        intro c hc he
        have := List.all_eq_true.mp hu c hc
        rw [he] at this
        exact absurd this (by decide)
      show replGo (placeholder i) v 0 (u ++ flatMix m) =
        u ++ flatMix (restM i v m)
      rw [placeholder_head i]
      rw [replGo_no_head 'G' _ v u (flatMix m) hall]
      rw [← placeholder_head i]
      rw [ih hOKm]
    | hole j =>
      have hj : j < 10 := hOK (.hole j) (List.mem_cons_self _ _)
      by_cases hij : j = i
      · subst hij
        show replGo (placeholder j) v 0 (placeholder j ++ flatMix m) =
          flatMix (restM j v (MixItem.hole j :: m))
        have hpre : (placeholder j).isPrefixOf (placeholder j ++ flatMix m) =
            true :=
          List.isPrefixOf_iff_prefix.mpr (List.prefix_append _ _)
        have hstep : placeholder j ++ flatMix m =
            'G' :: ((placeholder j).tail ++ flatMix m) := by
          rw [placeholder_head j]
          rfl
        rw [hstep]
        show (if (placeholder j).isPrefixOf
            ('G' :: ((placeholder j).tail ++ flatMix m)) then
            v ++ replGo (placeholder j) v ((placeholder j).length - 1)
              ((placeholder j).tail ++ flatMix m)
          else 'G' :: replGo (placeholder j) v 0
              ((placeholder j).tail ++ flatMix m)) = _
        rw [if_pos (show (placeholder j).isPrefixOf
          ('G' :: ((placeholder j).tail ++ flatMix m)) = true by
            rw [← hstep]; exact hpre)]
        have hlen : (placeholder j).tail.length = (placeholder j).length - 1 := by
          rw [placeholder_head j]
          rfl
        rw [replGo_skip (placeholder j) v (placeholder j).tail (flatMix m)
          ((placeholder j).length - 1) hlen]
        rw [ih hOKm]
        show v ++ flatMix (restM j v m) =
          flatMix ((if j = j then MixItem.seg v else MixItem.hole j) ::
            restM j v m)
        rw [if_pos rfl]
        rfl
      · show replGo (placeholder i) v 0 (placeholder j ++ flatMix m) =
          flatMix (restM i v (MixItem.hole j :: m))
        have hnopre : ¬ (placeholder i).isPrefixOf (placeholder j ++ flatMix m)
            = true := by
          intro hx
          have hp1 := List.isPrefixOf_iff_prefix.mp hx
          have hlen : (placeholder i).length ≤ (placeholder j).length := by
            rw [placeholder_facts.1 i hi, placeholder_facts.1 j hj]
          have hp2 := prefix_take_left _ _ _ hp1 hlen
          have heq : placeholder i = placeholder j :=
            List.IsPrefix.eq_of_length hp2
              (by rw [placeholder_facts.1 i hi, placeholder_facts.1 j hj])
          exact hij (placeholder_facts.2.2.2.2 i hi j hj heq).symm
        have hstep : placeholder j ++ flatMix m =
            'G' :: ((placeholder j).tail ++ flatMix m) := by
          rw [placeholder_head j]
          rfl
        rw [hstep]
        show (if (placeholder i).isPrefixOf
            ('G' :: ((placeholder j).tail ++ flatMix m)) then
            v ++ replGo (placeholder i) v ((placeholder i).length - 1)
              ((placeholder j).tail ++ flatMix m)
          else 'G' :: replGo (placeholder i) v 0
              ((placeholder j).tail ++ flatMix m)) = _
        rw [if_neg (by rw [← hstep]; exact hnopre)]
        have hall : ∀ c ∈ (placeholder j).tail, c ≠ 'G' :=
          placeholder_facts.2.2.2.1 j hj
        rw [placeholder_head i]
        rw [replGo_no_head 'G' _ v ((placeholder j).tail) (flatMix m) hall]
        rw [← placeholder_head i, ih hOKm]
        show 'G' :: ((placeholder j).tail ++ flatMix (restM i v m)) =
          flatMix ((if j = i then MixItem.seg v else MixItem.hole j) ::
            restM i v m)
        rw [if_neg hij]
        show _ = placeholder j ++ flatMix (restM i v m)
        rw [placeholder_head j]
        rfl

theorem mixOK_append (a b : List MixItem) (ha : mixOK a) (hb : mixOK b) :
    mixOK (a ++ b) := by
  intro it hit
  rcases List.mem_append.mp hit with h | h
  · exact ha it h
  · exact hb it h

theorem mixOK_consSeg (c : Char) (hc : phChar c = false) (m : List MixItem)
    (hm : mixOK m) : mixOK (consSeg c m) := by
  cases m with
  | nil =>
    intro it hit
    rcases List.mem_singleton.mp hit with rfl
    simp [itemOK, phFree, hc]
  | cons x m1 =>
    cases x with
    | seg u =>
      intro it hit
      rcases List.mem_cons.mp hit with rfl | h
      · have hu : itemOK (.seg u) := hm (.seg u) (List.mem_cons_self _ _)
        simp only [itemOK, phFree, List.all_eq_true] at hu ⊢
        intro d hd
        rcases List.mem_cons.mp hd with rfl | hd2
        · simp [hc]
        · exact hu d hd2
      · exact hm it (List.mem_cons_of_mem _ h)
    | hole j =>
      intro it hit
      rcases List.mem_cons.mp hit with rfl | h
      · simp [itemOK, phFree, hc]
      · exact hm it h

theorem mixOK_splitRepGo (t : List Char) (i : Nat) (hi : i < 10) :
    ∀ (u : List Char) (k : Nat), phFree u → mixOK (splitRepGo t i k u) := by
  intro u
  induction u with
  | nil => intro k _; cases k <;> exact fun it hit => absurd hit (List.not_mem_nil it)
  | cons c u ih =>
    intro k hu
    have hc : phChar c = false := by
      have := List.all_eq_true.mp hu c (List.mem_cons_self _ _)
      simpa using this
    have hu2 : phFree u := by
      simp only [phFree, List.all_eq_true] at hu ⊢
      exact fun d hd => hu d (List.mem_cons_of_mem _ hd)
    cases k with
    | zero =>
      by_cases hpre : t.isPrefixOf (c :: u) = true
      · show mixOK (if t.isPrefixOf (c :: u) then
          MixItem.hole i :: splitRepGo t i (t.length - 1) u
          else consSeg c (splitRepGo t i 0 u))
        rw [if_pos hpre]
        intro it hit
        rcases List.mem_cons.mp hit with rfl | h
        · exact hi
        · exact ih (t.length - 1) hu2 it h
      · show mixOK (if t.isPrefixOf (c :: u) then
          MixItem.hole i :: splitRepGo t i (t.length - 1) u
          else consSeg c (splitRepGo t i 0 u))
        rw [if_neg hpre]
        exact mixOK_consSeg c hc _ (ih 0 hu2)
    | succ k =>
      show mixOK (splitRepGo t i k u)
      exact ih k hu2

theorem mixOK_protM (t : List Char) (i : Nat) (hi : i < 10) :
    ∀ m : List MixItem, mixOK m → mixOK (protM t i m) := by
  intro m
  induction m with
  | nil => intro _; exact fun it hit => absurd hit (List.not_mem_nil it)
  | cons it m ih =>
    intro hOK
    have hOKm : mixOK m := fun x hx => hOK x (List.mem_cons_of_mem _ hx)
    cases it with
    | seg u =>
      exact mixOK_append _ _
        (mixOK_splitRepGo t i hi u 0 (hOK (.seg u) (List.mem_cons_self _ _)))
        (ih hOKm)
    | hole j =>
      intro x hx
      rcases List.mem_cons.mp hx with rfl | h
      · exact hOK (.hole j) (List.mem_cons_self _ _)
      · exact ih hOKm x h

theorem mixOK_restM (i : Nat) (v : List Char) (hv : phFree v)
    (m : List MixItem) (hm : mixOK m) : mixOK (restM i v m) := by
  intro it hit
  obtain ⟨x, hx, hmap⟩ := List.mem_map.mp hit
  cases x with
  | seg u => rw [← hmap]; exact hm (.seg u) hx
  | hole j =>
    by_cases hij : j = i
    · simp only [hij, if_pos rfl] at hmap
      rw [← hmap]
      exact hv
    · simp only [if_neg hij] at hmap
      rw [← hmap]
      exact hm (.hole j) hx

theorem altOK_consSeg (c : Char) (m : List MixItem) (h : altOK m) :
    altOK (consSeg c m) := by
  cases m with
  | nil => trivial
  | cons x m1 =>
    cases x with
    | seg u =>
      cases m1 with
      | nil => trivial
      | cons y m2 =>
        cases y with
        | seg w => exact absurd h id
        | hole j => exact h
    | hole j => exact h

theorem consSeg_append (c : Char) (X rest : List MixItem)
    (hrest : headNotSeg rest) : consSeg c X ++ rest = consSeg c (X ++ rest) := by
  cases X with
  | nil =>
    cases rest with
    | nil => rfl
    | cons y r1 =>
      cases y with
      | seg u => exact absurd hrest id
      | hole j => rfl
  | cons x X1 => cases x <;> rfl

theorem altOK_splitRepGo_append (t : List Char) (i : Nat) :
    ∀ (u : List Char) (k : Nat) (rest : List MixItem), altOK rest →
      headNotSeg rest → altOK (splitRepGo t i k u ++ rest) := by
  intro u
  induction u with
  | nil => intro k rest h _; cases k <;> exact h
  | cons c u ih =>
    intro k rest hrest hns
    cases k with
    | zero =>
      by_cases hpre : t.isPrefixOf (c :: u) = true
      · show altOK ((if t.isPrefixOf (c :: u) then
          MixItem.hole i :: splitRepGo t i (t.length - 1) u
          else consSeg c (splitRepGo t i 0 u)) ++ rest)
        rw [if_pos hpre]
        show altOK (MixItem.hole i :: (splitRepGo t i (t.length - 1) u ++ rest))
        have h2 := ih (t.length - 1) rest hrest hns
        cases hsp : splitRepGo t i (t.length - 1) u ++ rest with
        | nil => trivial
        | cons y ys =>
          rw [hsp] at h2
          cases y with
          | seg w => exact h2
          | hole j => exact h2
      · show altOK ((if t.isPrefixOf (c :: u) then
          MixItem.hole i :: splitRepGo t i (t.length - 1) u
          else consSeg c (splitRepGo t i 0 u)) ++ rest)
        rw [if_neg hpre, consSeg_append c _ rest hns]
        exact altOK_consSeg c _ (ih 0 rest hrest hns)
    | succ k =>
      show altOK (splitRepGo t i k u ++ rest)
      exact ih k rest hrest hns

theorem headNotSeg_protM (t : List Char) (i : Nat) (m : List MixItem)
    (h : headNotSeg m) : headNotSeg (protM t i m) := by
  cases m with
  | nil => trivial
  | cons x m1 =>
    cases x with
    | seg u => exact absurd h id
    | hole j => trivial

theorem altOK_protM (t : List Char) (i : Nat) :
    ∀ m : List MixItem, altOK m → altOK (protM t i m) := by
  intro m
  induction m with
  | nil => intro _; trivial
  | cons it m ih =>
    intro hAlt
    have hAltm : altOK m := altOK_tail it m hAlt
    cases it with
    | seg u =>
      show altOK (splitRepGo t i 0 u ++ protM t i m)
      have hns : headNotSeg m := by
        cases m with
        | nil => trivial
        | cons y m1 =>
          cases y with
          | seg w => exact absurd hAlt id
          | hole j => trivial
      exact altOK_splitRepGo_append t i u 0 (protM t i m) (ih hAltm)
        (headNotSeg_protM t i m hns)
    | hole j =>
      show altOK (MixItem.hole j :: protM t i m)
      have h2 := ih hAltm
      cases hp : protM t i m with
      | nil => trivial
      | cons y ys =>
        rw [hp] at h2
        cases y with
        | seg w => exact h2
        | hole k2 => exact h2

theorem hole_mem_consSeg (c : Char) (m : List MixItem) (w : Nat)
    (h : MixItem.hole w ∈ consSeg c m) : MixItem.hole w ∈ m := by
  cases m with
  | nil => exact absurd (List.mem_singleton.mp h) (by simp)
  | cons x m1 =>
    cases x with
    | seg u =>
      rcases List.mem_cons.mp h with h2 | h2
      · exact absurd h2 (by simp)
      · exact List.mem_cons_of_mem _ h2
    | hole j =>
      rcases List.mem_cons.mp h with h2 | h2
      · exact absurd h2 (by simp)
      · exact h2

theorem hole_mem_splitRepGo (t : List Char) (i : Nat) :
    ∀ (u : List Char) (k : Nat) (w : Nat),
      MixItem.hole w ∈ splitRepGo t i k u → w = i := by
  intro u
  induction u with
  | nil => intro k w h; cases k <;> exact absurd h (List.not_mem_nil _)
  | cons c u ih =>
    intro k w h
    cases k with
    | zero =>
      by_cases hpre : t.isPrefixOf (c :: u) = true
      · rw [show splitRepGo t i 0 (c :: u) = (if t.isPrefixOf (c :: u) then
            MixItem.hole i :: splitRepGo t i (t.length - 1) u
            else consSeg c (splitRepGo t i 0 u)) from rfl, if_pos hpre] at h
        rcases List.mem_cons.mp h with h2 | h2
        · injection h2 with h3
        · exact ih (t.length - 1) w h2
      · rw [show splitRepGo t i 0 (c :: u) = (if t.isPrefixOf (c :: u) then
            MixItem.hole i :: splitRepGo t i (t.length - 1) u
            else consSeg c (splitRepGo t i 0 u)) from rfl, if_neg hpre] at h
        exact ih 0 w (hole_mem_consSeg c _ w h)
    | succ k => exact ih k w h

theorem holesLT_protM (t : List Char) (i : Nat) :
    ∀ m : List MixItem, holesLT m i → holesLT (protM t i m) (i + 1) := by
  intro m
  induction m with
  | nil => intro _ w hw; exact absurd hw (List.not_mem_nil _)
  | cons it m ih =>
    intro hm w hw
    have hm2 : holesLT m i := fun j hj => hm j (List.mem_cons_of_mem _ hj)
    cases it with
    | seg u =>
      rcases List.mem_append.mp hw with h | h
      · rw [hole_mem_splitRepGo t i u 0 w h]
        omega
      · exact ih hm2 w h
    | hole j =>
      rcases List.mem_cons.mp hw with h | h
      · injection h with h2
        subst h2
        have := hm w (List.mem_cons_self _ _)
        omega
      · exact ih hm2 w h

theorem restM_comm (i j : Nat) (hij : i ≠ j) (v w : List Char)
    (m : List MixItem) :
    restM i v (restM j w m) = restM j w (restM i v m) := by
  unfold restM
  rw [List.map_map, List.map_map]
  apply List.map_congr_left
  intro x _
  cases x with
  | seg u => rfl
  | hole k2 =>
    by_cases h1 : k2 = j
    · subst h1
      simp [if_neg (Ne.symm hij)]
    · by_cases h2 : k2 = i <;> simp [h1, h2, hij]

theorem multiRestM_append (m : List MixItem) (a b : List (Nat × List Char)) :
    multiRestM m (a ++ b) = multiRestM (multiRestM m a) b := by
  induction a generalizing m with
  | nil => rfl
  | cons p a ih =>
    obtain ⟨i, v⟩ := p
    show multiRestM (restM i v m) (a ++ b) = _
    exact ih (restM i v m)

theorem restM_multiRestM (i : Nat) (v : List Char)
    (σ : List (Nat × List Char)) (hσ : ∀ p ∈ σ, p.1 ≠ i) :
    ∀ m, restM i v (multiRestM m σ) = multiRestM (restM i v m) σ := by
  induction σ with
  | nil => intro m; rfl
  | cons p σ ih =>
    intro m
    obtain ⟨j, w⟩ := p
    have hj : j ≠ i := hσ (j, w) (List.mem_cons_self _ _)
    show restM i v (multiRestM (restM j w m) σ) = multiRestM (restM j w _) σ
    rw [ih (fun q hq => hσ q (List.mem_cons_of_mem _ hq)) (restM j w m)]
    rw [restM_comm i j (Ne.symm hj) v w m]

theorem flatRestM_consSeg (i : Nat) (v : List Char) (c : Char)
    (X : List MixItem) :
    flatMix (restM i v (consSeg c X)) = c :: flatMix (restM i v X) := by
  cases X with
  | nil => rfl
  | cons x X1 => cases x <;> rfl

theorem splitRepGo_skip (t : List Char) (i : Nat) :
    ∀ (w s : List Char) (k : Nat), w.length = k →
      splitRepGo t i k (w ++ s) = splitRepGo t i 0 s := by
  intro w
  induction w with
  | nil =>
    intro s k hk
    subst hk
    rfl
  | cons c w ih =>
    intro s k hk
    subst hk
    show splitRepGo t i w.length (w ++ s) = _
    exact ih s w.length rfl

/-- Splitting a segment on t and refilling every hole with t restores the
    segment. -/
theorem splitRep_undo (t : List Char) (ht : t ≠ []) (i : Nat) :
    ∀ (n : Nat) (u : List Char), u.length ≤ n →
      flatMix (restM i t (splitRepGo t i 0 u)) = u := by
  intro n
  induction n with
  | zero =>
    intro u hu
    have : u = [] := List.length_eq_zero.mp (Nat.le_zero.mp hu)
    subst this
    rfl
  | succ n ih =>
    intro u hu
    cases u with
    | nil => rfl
    | cons c s =>
      by_cases hpre : t.isPrefixOf (c :: s) = true
      · obtain ⟨s2, hs2⟩ := List.isPrefixOf_iff_prefix.mp hpre
        cases t with
        | nil => exact absurd rfl ht
        | cons hd t1 =>
          rw [List.cons_append] at hs2
          injection hs2 with hhd hs
          rw [show splitRepGo (hd :: t1) i 0 (c :: s) =
              (if (hd :: t1).isPrefixOf (c :: s) then
                MixItem.hole i ::
                  splitRepGo (hd :: t1) i ((hd :: t1).length - 1) s
              else consSeg c (splitRepGo (hd :: t1) i 0 s)) from rfl,
            if_pos hpre]
          rw [← hs]
          rw [splitRepGo_skip (hd :: t1) i t1 s2 ((hd :: t1).length - 1)
            (by simp)]
          rw [show restM i (hd :: t1)
              (MixItem.hole i :: splitRepGo (hd :: t1) i 0 s2) =
              MixItem.seg (hd :: t1) ::
                restM i (hd :: t1) (splitRepGo (hd :: t1) i 0 s2) by
            unfold restM
            simp]
          show (hd :: t1) ++ flatMix (restM i (hd :: t1)
            (splitRepGo (hd :: t1) i 0 s2)) = c :: (t1 ++ s2)
          have hlen : s2.length ≤ n := by
            have h1 : s.length ≤ n := by
              simp only [List.length_cons] at hu
              omega
            have h2 : s.length = t1.length + s2.length := by
              rw [← hs]
              simp
            omega
          rw [ih s2 hlen, hhd]
          rfl
      · rw [show splitRepGo t i 0 (c :: s) =
            (if t.isPrefixOf (c :: s) then
              MixItem.hole i :: splitRepGo t i (t.length - 1) s
            else consSeg c (splitRepGo t i 0 s)) from rfl,
          if_neg hpre]
        rw [flatRestM_consSeg]
        have hlen : s.length ≤ n := by
          simp only [List.length_cons] at hu
          omega
        rw [ih s hlen]

/-- Protecting t as hole i and then restoring hole i with t is the
    identity on the flattened text (when i was not previously used). -/
theorem restM_protM_flat (t : List Char) (ht : t ≠ []) (i : Nat) :
    ∀ m : List MixItem, holesLT m i →
      flatMix (restM i t (protM t i m)) = flatMix m := by
  intro m
  induction m with
  | nil => intro _; rfl
  | cons it m ih =>
    intro hm
    have hm2 : holesLT m i := fun j hj => hm j (List.mem_cons_of_mem _ hj)
    cases it with
    | seg u =>
      show flatMix (restM i t (splitRepGo t i 0 u ++ protM t i m)) =
        u ++ flatMix m
      unfold restM
      rw [List.map_append]
      rw [flatMix_append]
      show flatMix (restM i t (splitRepGo t i 0 u)) ++
        flatMix (restM i t (protM t i m)) = _
      rw [splitRep_undo t ht i u.length u (le_refl _), ih hm2]
    | hole j =>
      have hj : j < i := hm j (List.mem_cons_self _ _)
      have hji : ¬ j = i := by omega
      show flatMix ((if j = i then MixItem.seg t else MixItem.hole j) ::
        restM i t (protM t i m)) = placeholder j ++ flatMix m
      rw [if_neg hji]
      show placeholder j ++ flatMix (restM i t (protM t i m)) = _
      rw [ih hm2]

theorem placeholder_ne_nil (i : Nat) : placeholder i ≠ [] := by
  rw [placeholder_head i]
  exact List.cons_ne_nil _ _

/-- Iterated mix-level restoration computes the source-level restore
    fold. -/
theorem flat_multiRestM (σ : List (Nat × List Char)) :
    ∀ m : List MixItem, mixOK m → (∀ p ∈ σ, p.1 < 10 ∧ phFree p.2) →
      flatMix (multiRestM m σ) =
        σ.foldl (fun x pr => pyReplace x (placeholder pr.1) pr.2)
          (flatMix m) := by
  induction σ with
  | nil => intro m _ _; rfl
  | cons p σ ih =>
    intro m hOK hσ
    obtain ⟨i, v⟩ := p
    obtain ⟨hi, hv⟩ := hσ (i, v) (List.mem_cons_self _ _)
    show flatMix (multiRestM (restM i v m) σ) = _
    rw [ih (restM i v m) (mixOK_restM i v hv m hOK)
      (fun q hq => hσ q (List.mem_cons_of_mem _ hq))]
    show _ = List.foldl _ (pyReplace (flatMix m) (placeholder i) v) σ
    rw [show pyReplace (flatMix m) (placeholder i) v =
        replGo (placeholder i) v 0 (flatMix m) by
      unfold pyReplace
      rw [if_neg (placeholder_ne_nil i)]]
    rw [flatMix_restM i hi v m hOK]

/-- The source-level protection loop is the flattening of the mix-level
    one. -/
theorem protectGo_protGoM (g : List (List Char × List Char)) :
    ∀ (terms : List (List Char)) (idx : Nat) (m : List MixItem),
      mixOK m → altOK m → (∀ t ∈ terms, t ≠ [] ∧ phFree t) →
      idx + terms.length ≤ 10 →
      protectGo g terms idx (flatMix m) =
        (flatMix (protGoM terms idx m).1,
         (protGoM terms idx m).2.map
           (fun p => (placeholder p.1, glossaryLookup g p.2))) := by
  intro terms
  induction terms with
  | nil => intro idx m _ _ _ _; rfl
  | cons term rest ih =>
    intro idx m hOK hAlt hterms hbound
    obtain ⟨ht0, htf⟩ := hterms term (List.mem_cons_self _ _)
    have hterms2 : ∀ t ∈ rest, t ≠ [] ∧ phFree t :=
      fun t htm => hterms t (List.mem_cons_of_mem _ htm)
    have hidx : idx < 10 := by
      simp only [List.length_cons] at hbound
      omega
    have hbound2 : idx + 1 + rest.length ≤ 10 := by
      simp only [List.length_cons] at hbound
      omega
    by_cases hocc : isSubstring term (flatMix m) = true
    · have hrepl : pyReplace (flatMix m) term (placeholder idx) =
          flatMix (protM term idx m) := by
        unfold pyReplace
        rw [if_neg ht0]
        exact flatMix_protM term idx ht0
          (fun c hc => by
            have := List.all_eq_true.mp htf c hc
            simpa using this) m hOK hAlt
      show (if isSubstring term (flatMix m) then
        (((protectGo g rest (idx + 1)
            (pyReplace (flatMix m) term (placeholder idx)))).1,
          (placeholder idx, glossaryLookup g term) ::
            (protectGo g rest (idx + 1)
              (pyReplace (flatMix m) term (placeholder idx))).2)
        else protectGo g rest (idx + 1) (flatMix m)) = _
      rw [if_pos hocc, hrepl]
      rw [ih (idx + 1) (protM term idx m)
        (mixOK_protM term idx hidx m hOK) (altOK_protM term idx m hAlt)
        hterms2 hbound2]
      rw [show protGoM (term :: rest) idx m =
          ((protGoM rest (idx + 1) (protM term idx m)).1,
            (idx, term) :: (protGoM rest (idx + 1) (protM term idx m)).2) by
        simp only [protGoM]
        rw [if_pos hocc]]
      rfl
    · show (if isSubstring term (flatMix m) then
        (((protectGo g rest (idx + 1)
            (pyReplace (flatMix m) term (placeholder idx)))).1,
          (placeholder idx, glossaryLookup g term) ::
            (protectGo g rest (idx + 1)
              (pyReplace (flatMix m) term (placeholder idx))).2)
        else protectGo g rest (idx + 1) (flatMix m)) = _
      rw [if_neg hocc]
      rw [ih (idx + 1) m hOK hAlt hterms2 (by omega)]
      rw [show protGoM (term :: rest) idx m = protGoM rest (idx + 1) m by
        simp only [protGoM]
        rw [if_neg hocc]]

/-- The mix produced by the protection loop remains well-formed. -/
theorem protGoM_mixOK :
    ∀ (terms : List (List Char)) (idx : Nat) (m : List MixItem),
      mixOK m → (∀ t ∈ terms, t ≠ [] ∧ phFree t) →
      idx + terms.length ≤ 10 →
      mixOK (protGoM terms idx m).1 := by
  intro terms
  induction terms with
  | nil => intro idx m hOK _ _; exact hOK
  | cons term rest ih =>
    intro idx m hOK hterms hbound
    have hidx : idx < 10 := by
      simp only [List.length_cons] at hbound
      omega
    have hterms2 : ∀ t ∈ rest, t ≠ [] ∧ phFree t :=
      fun t htm => hterms t (List.mem_cons_of_mem _ htm)
    have hbound2 : idx + 1 + rest.length ≤ 10 := by
      simp only [List.length_cons] at hbound
      omega
    by_cases hocc : isSubstring term (flatMix m) = true
    · rw [show protGoM (term :: rest) idx m =
          ((protGoM rest (idx + 1) (protM term idx m)).1,
            (idx, term) :: (protGoM rest (idx + 1) (protM term idx m)).2) by
        simp only [protGoM]
        rw [if_pos hocc]]
      exact ih (idx + 1) _ (mixOK_protM term idx hidx m hOK) hterms2 hbound2
    · rw [show protGoM (term :: rest) idx m = protGoM rest (idx + 1) m by
        simp only [protGoM]
        rw [if_neg hocc]]
      exact ih (idx + 1) m hOK hterms2 (by omega)

/-- Every map entry the loop records carries an index in
    [idx, idx + #terms) and one of the processed terms. -/
theorem protGoM_map_mem :
    ∀ (terms : List (List Char)) (idx : Nat) (m : List MixItem)
      (p : Nat × List Char), p ∈ (protGoM terms idx m).2 →
      idx ≤ p.1 ∧ p.1 < idx + terms.length ∧ p.2 ∈ terms := by
  intro terms
  induction terms with
  | nil => intro idx m p hp; exact absurd hp (List.not_mem_nil _)
  | cons term rest ih =>
    intro idx m p hp
    by_cases hocc : isSubstring term (flatMix m) = true
    · rw [show protGoM (term :: rest) idx m =
          ((protGoM rest (idx + 1) (protM term idx m)).1,
            (idx, term) :: (protGoM rest (idx + 1) (protM term idx m)).2) by
        simp only [protGoM]
        rw [if_pos hocc]] at hp
      rcases List.mem_cons.mp hp with rfl | h2
      · refine ⟨le_refl _, ?_, List.mem_cons_self _ _⟩
        simp only [List.length_cons]
        omega
      · obtain ⟨ha, hb, hc⟩ := ih (idx + 1) _ p h2
        refine ⟨by omega, ?_, List.mem_cons_of_mem _ hc⟩
        simp only [List.length_cons]
        omega
    · rw [show protGoM (term :: rest) idx m = protGoM rest (idx + 1) m by
        simp only [protGoM]
        rw [if_neg hocc]] at hp
      obtain ⟨ha, hb, hc⟩ := ih (idx + 1) m p hp
      refine ⟨by omega, ?_, List.mem_cons_of_mem _ hc⟩
      simp only [List.length_cons]
      omega

/-- Core inversion: restoring the recorded map (after restoring any
    earlier substitution list σ) undoes the protection loop on the
    flattened text. -/
theorem protGoM_undo :
    ∀ (terms : List (List Char)) (idx : Nat) (m : List MixItem)
      (σ : List (Nat × List Char)),
      mixOK m → altOK m → holesLT m idx → idx + terms.length ≤ 10 →
      (∀ t ∈ terms, t ≠ [] ∧ phFree t) →
      (∀ p ∈ σ, p.1 < idx ∧ phFree p.2) →
      flatMix (multiRestM (protGoM terms idx m).1
        (σ ++ (protGoM terms idx m).2)) = flatMix (multiRestM m σ) := by
  intro terms
  induction terms with
  | nil =>
    intro idx m σ _ _ _ _ _ _
    show flatMix (multiRestM m (σ ++ [])) = flatMix (multiRestM m σ)
    rw [List.append_nil]
  | cons term rest ih =>
    intro idx m σ hOK hAlt hholes hbound hterms hσ
    obtain ⟨ht0, htf⟩ := hterms term (List.mem_cons_self _ _)
    have hterms2 : ∀ t ∈ rest, t ≠ [] ∧ phFree t :=
      fun t htm => hterms t (List.mem_cons_of_mem _ htm)
    have hidx : idx < 10 := by
      simp only [List.length_cons] at hbound
      omega
    have hbound2 : idx + 1 + rest.length ≤ 10 := by
      simp only [List.length_cons] at hbound
      omega
    by_cases hocc : isSubstring term (flatMix m) = true
    · rw [show protGoM (term :: rest) idx m =
          ((protGoM rest (idx + 1) (protM term idx m)).1,
            (idx, term) :: (protGoM rest (idx + 1) (protM term idx m)).2) by
        simp only [protGoM]
        rw [if_pos hocc]]
      show flatMix (multiRestM (protGoM rest (idx + 1) (protM term idx m)).1
        (σ ++ (idx, term) :: (protGoM rest (idx + 1) (protM term idx m)).2)) =
        flatMix (multiRestM m σ)
      have hassoc : σ ++ (idx, term) ::
          (protGoM rest (idx + 1) (protM term idx m)).2 =
          (σ ++ [(idx, term)]) ++
            (protGoM rest (idx + 1) (protM term idx m)).2 := by
        simp
      rw [hassoc]
      have hσ2 : ∀ p ∈ σ ++ [(idx, term)], p.1 < idx + 1 ∧ phFree p.2 := by
        intro p hp
        rcases List.mem_append.mp hp with h | h
        · obtain ⟨h1, h2⟩ := hσ p h
          exact ⟨by omega, h2⟩
        · rcases List.mem_singleton.mp h with rfl
          exact ⟨by omega, htf⟩
      rw [ih (idx + 1) (protM term idx m) (σ ++ [(idx, term)])
        (mixOK_protM term idx hidx m hOK) (altOK_protM term idx m hAlt)
        (holesLT_protM term idx m hholes) hbound2 hterms2 hσ2]
      rw [multiRestM_append]
      show flatMix (multiRestM
        (restM idx term (multiRestM (protM term idx m) σ)) []) = _
      show flatMix (restM idx term (multiRestM (protM term idx m) σ)) = _
      rw [restM_multiRestM idx term σ
        (fun p hp => by have := (hσ p hp).1; omega) (protM term idx m)]
      have hσ3 : ∀ p ∈ σ, p.1 < 10 ∧ phFree p.2 := by
        intro p hp
        obtain ⟨h1, h2⟩ := hσ p hp
        exact ⟨by omega, h2⟩
      rw [flat_multiRestM σ _
        (mixOK_restM idx term htf _ (mixOK_protM term idx hidx m hOK)) hσ3]
      rw [restM_protM_flat term ht0 idx m hholes]
      rw [← flat_multiRestM σ m hOK hσ3]
    · rw [show protGoM (term :: rest) idx m = protGoM rest (idx + 1) m by
        simp only [protGoM]
        rw [if_neg hocc]]
      exact ih (idx + 1) m σ hOK hAlt
        (fun j hj => by have := hholes j hj; omega) (by omega) hterms2
        (fun p hp => ⟨by have := (hσ p hp).1; omega, (hσ p hp).2⟩)

theorem mem_insertDesc (x a : List Char) :
    ∀ l : List (List Char), a ∈ insertDesc x l ↔ a = x ∨ a ∈ l := by
  intro l
  induction l with
  | nil => simp [insertDesc]
  | cons y ys ih =>
    show a ∈ (if x.length < y.length then y :: insertDesc x ys
      else x :: y :: ys) ↔ _
    by_cases h : x.length < y.length
    · rw [if_pos h]
      simp only [List.mem_cons, ih]
      tauto
    · rw [if_neg h]
      simp only [List.mem_cons]

theorem length_insertDesc (x : List Char) :
    ∀ l : List (List Char), (insertDesc x l).length = l.length + 1 := by
  intro l
  induction l with
  | nil => rfl
  | cons y ys ih =>
    show (if x.length < y.length then y :: insertDesc x ys
      else x :: y :: ys).length = _
    by_cases h : x.length < y.length
    · rw [if_pos h]
      simp [ih]
    · rw [if_neg h]
      simp

theorem mem_sortFold (a : List Char) :
    ∀ L : List (List Char), a ∈ L.foldr insertDesc [] ↔ a ∈ L := by
  intro L
  induction L with
  | nil => simp
  | cons x L ih =>
    show a ∈ insertDesc x (L.foldr insertDesc []) ↔ _
    rw [mem_insertDesc, ih]
    simp

theorem length_sortFold :
    ∀ L : List (List Char), (L.foldr insertDesc []).length = L.length := by
  intro L
  induction L with
  | nil => rfl
  | cons x L ih =>
    show (insertDesc x (L.foldr insertDesc [])).length = _
    rw [length_insertDesc, ih]
    rfl

/-- On an identity glossary, looking a key up returns the key. -/
theorem glossaryLookup_id (g : List (List Char × List Char))
    (hid : ∀ p ∈ g, p.2 = p.1) :
    ∀ k, k ∈ g.map Prod.fst → glossaryLookup g k = k := by
  induction g with
  | nil => intro k hk; exact absurd hk (by simp)
  | cons p g ih =>
    intro k hk
    obtain ⟨a, b⟩ := p
    show (if a = k then b else glossaryLookup g k) = k
    by_cases hak : a = k
    · rw [if_pos hak]
      have := hid (a, b) (List.mem_cons_self _ _)
      simp only at this
      rw [this, hak]
    · rw [if_neg hak]
      rcases List.mem_map.mp hk with ⟨q, hq, hq2⟩
      rcases List.mem_cons.mp hq with rfl | hq3
      · exact absurd hq2 hak
      · exact ih (fun r hr => hid r (List.mem_cons_of_mem _ hr)) k
          (List.mem_map.mpr ⟨q, hq3, hq2⟩)

/-- C2 (amended): protecting and then restoring is the identity provided
    each glossary term is mapped to itself (the code restores the
    glossary VALUE, not the term), the glossary has at most ten entries
    (placeholder names stay distinct single-digit tokens), the terms are
    non-empty, and neither text nor terms contain characters of the
    placeholder alphabet (no placeholder collides with the content and no
    term overlaps a placeholder ambiguously). -/
theorem glossary_round_trip (text : List Char)
    (g : List (List Char × List Char))
    (hid : ∀ p ∈ g, p.2 = p.1)
    (hterms : ∀ p ∈ g, p.1 ≠ [] ∧ phFree p.1)
    (htext : phFree text)
    (hlen : g.length ≤ 10) :
    restore_glossary_terms (protect_glossary_terms text g).1
      (protect_glossary_terms text g).2 = text := by
  have hm0OK : mixOK [MixItem.seg text] := by
    intro it hit
    rcases List.mem_singleton.mp hit with rfl
    exact htext
  have hm0Alt : altOK [MixItem.seg text] := trivial
  have hm0holes : holesLT [MixItem.seg text] 0 := by
    intro j hj
    have hj2 := List.mem_singleton.mp hj
    simp at hj2
  have hflat0 : flatMix [MixItem.seg text] = text := by
    show text ++ ([] : List Char) = text
    rw [List.append_nil]
  have htermsS : ∀ t ∈ sortedTerms g, t ≠ [] ∧ phFree t := by
    intro t ht
    have : t ∈ g.map Prod.fst := (mem_sortFold t _).mp ht
    rcases List.mem_map.mp this with ⟨p, hp, hp2⟩
    rw [← hp2]
    exact hterms p hp
  have hlenS : 0 + (sortedTerms g).length ≤ 10 := by
    have hlg : (sortedTerms g).length = g.length := by
      unfold sortedTerms
      rw [length_sortFold, List.length_map]
    omega
  have hrel := protectGo_protGoM g (sortedTerms g) 0 [MixItem.seg text]
    hm0OK hm0Alt htermsS hlenS
  rw [hflat0] at hrel
  show restore_glossary_terms (protectGo g (sortedTerms g) 0 text).1
    (protectGo g (sortedTerms g) 0 text).2 = text
  rw [hrel]
  set R := protGoM (sortedTerms g) 0 [MixItem.seg text] with hR
  have hmapmem := protGoM_map_mem (sortedTerms g) 0 [MixItem.seg text]
  have hmapid : R.2.map (fun p => (placeholder p.1, glossaryLookup g p.2)) =
      R.2.map (fun p => (placeholder p.1, p.2)) := by
    apply List.map_congr_left
    intro p hp
    obtain ⟨_, _, hmem⟩ := hmapmem p (by rw [← hR]; exact hp)
    have : p.2 ∈ g.map Prod.fst := (mem_sortFold p.2 _).mp hmem
    rw [glossaryLookup_id g hid p.2 this]
  rw [hmapid]
  show (R.2.map (fun p => (placeholder p.1, p.2))).foldl
    (fun t pr => pyReplace t pr.1 pr.2) (flatMix R.1) = text
  rw [List.foldl_map]
  have hσcond : ∀ p ∈ R.2, p.1 < 10 ∧ phFree p.2 := by
    intro p hp
    obtain ⟨h1, h2, h3⟩ := hmapmem p (by rw [← hR]; exact hp)
    refine ⟨?_, (htermsS p.2 h3).2⟩
    have := hlenS
    omega
  have hROK : mixOK R.1 := by
    rw [hR]
    exact protGoM_mixOK (sortedTerms g) 0 [MixItem.seg text] hm0OK htermsS hlenS
  have hflatrest := flat_multiRestM R.2 R.1 hROK hσcond
  have hfold : R.2.foldl (fun x pr => pyReplace x (placeholder pr.1) pr.2)
      (flatMix R.1) = flatMix (multiRestM R.1 R.2) := hflatrest.symm
  show R.2.foldl (fun t p => pyReplace t (placeholder p.1) p.2)
    (flatMix R.1) = text
  rw [hfold]
  have hundo := protGoM_undo (sortedTerms g) 0 [MixItem.seg text] []
    hm0OK hm0Alt hm0holes hlenS htermsS (by intro p hp; exact absurd hp (by simp))
  rw [← hR] at hundo
  rw [show ([] : List (Nat × List Char)) ++ R.2 = R.2 from rfl] at hundo
  rw [hundo]
  show flatMix [MixItem.seg text] = text
  exact hflat0

/-- Witness for C2's amended round trip at a concrete text and identity
    glossary. -/
theorem glossary_round_trip_witness :
    restore_glossary_terms
      (protect_glossary_terms (("he pet the cat and the dog").toList)
        [((("cat").toList), (("cat").toList)),
         ((("dog").toList), (("dog").toList))]).1
      (protect_glossary_terms (("he pet the cat and the dog").toList)
        [((("cat").toList), (("cat").toList)),
         ((("dog").toList), (("dog").toList))]).2 =
      ("he pet the cat and the dog").toList :=
  glossary_round_trip (("he pet the cat and the dog").toList)
    [((("cat").toList), (("cat").toList)),
     ((("dog").toList), (("dog").toList))]
    (by decide) (by decide) (by decide) (by decide)

/-- C8 counterexample: six callers at distinct instants inside one
    window; callers 4 and 5 both pass the count check before either
    records itself, so six provider calls are admitted inside the window
    (0, 1] — the configured cap of five is exceeded under concurrent
    interleaving (the check and the add are separate Redis operations). -/
theorem rate_limit_concurrent_cx :
    ((runSched [1/10, 2/10, 3/10, 4/10, 5/10, 6/10]
      [0, 0, 1, 1, 2, 2, 3, 3, 4, 5, 4, 5]
      ([], List.replicate 6 CPhase.ready)).2.filter
        (fun p => p = CPhase.done true)).length = 6 ∧
    ((runSched [1/10, 2/10, 3/10, 4/10, 5/10, 6/10]
      [0, 0, 1, 1, 2, 2, 3, 3, 4, 5, 4, 5]
      ([], List.replicate 6 CPhase.ready)).1.filter (inWindow 0)).length = 6 ∧
    max_requests_per_second < 6 := by
  refine ⟨?_, ?_, by decide⟩ <;>
    norm_num [runSched, cstep, rlClean, rlAdd, inWindow,
      max_requests_per_second, List.replicate, List.filter]

theorem length_filter_mono (p q : Rat → Bool) :
    ∀ l : List Rat, (∀ a ∈ l, p a = true → q a = true) →
      (l.filter p).length ≤ (l.filter q).length := by
  intro l
  induction l with
  | nil => intro _; exact le_refl _
  | cons a l ih =>
    intro h
    have ht : ∀ b ∈ l, p b = true → q b = true :=
      fun b hb => h b (List.mem_cons_of_mem _ hb)
    by_cases hpa : p a = true
    · have hqa := h a (List.mem_cons_self _ _) hpa
      rw [List.filter_cons_of_pos hpa, List.filter_cons_of_pos hqa]
      simpa using ih ht
    · rw [List.filter_cons_of_neg (by simpa using hpa)]
      by_cases hqa : q a = true
      · rw [List.filter_cons_of_pos hqa]
        exact le_trans (ih ht) (by simp)
      · rw [List.filter_cons_of_neg (by simpa using hqa)]
        exact ih ht

/-- Cleaning a window of nonnegative admitted times at a later instant
    yields the times within one second of that instant. -/
theorem rlClean_filter (adm : List Rat) (T t : Rat) (hTt : T ≤ t)
    (hadm : ∀ a ∈ adm, 0 ≤ a) :
    rlClean (adm.filter (fun s => decide (T - 1 < s))) t =
      adm.filter (fun s => decide (t - 1 < s)) := by
  unfold rlClean
  rw [List.filter_filter]
  apply List.filter_congr
  intro a ha
  have h0 := hadm a ha
  by_cases hlt : t - 1 < a
  · have h1 : ¬(a ≤ t - 1) := not_le.mpr hlt
    have h2 : T - 1 < a := by linarith
    simp [hlt, h1, h2]
  · have h1 : a ≤ t - 1 := not_lt.mp hlt
    simp [hlt, h1, h0]

/-- Sequential safety invariant of the limiter loop: fault-free attempts
    at strictly increasing times keep every sliding window at the cap. -/
theorem rlRunGo_bound :
    ∀ (ts : List (Rat × Bool)) (z adm : List Rat) (T : Rat),
      z = adm.filter (fun s => decide (T - 1 < s)) →
      (∀ a ∈ adm, 0 ≤ a ∧ a ≤ T) →
      (∀ p ∈ ts, p.2 = false) →
      List.Pairwise (· < ·) (T :: ts.map Prod.fst) →
      0 ≤ T →
      (∀ w, (adm.filter (inWindow w)).length ≤ max_requests_per_second) →
      ∀ w, ((rlRunGo z adm ts).2.filter (inWindow w)).length ≤
        max_requests_per_second := by
  intro ts
  induction ts with
  | nil =>
    intro z adm T _ _ _ _ _ hcount w
    exact hcount w
  | cons a ts ih =>
    intro z adm T hz hadm hfault hpair h0T hcount
    obtain ⟨t, f⟩ := a
    have hf : f = false := hfault (t, f) (List.mem_cons_self _ _)
    subst hf
    have hfault2 : ∀ p ∈ ts, p.2 = false :=
      fun p hp => hfault p (List.mem_cons_of_mem _ hp)
    have hpair1 : List.Pairwise (· < ·) (T :: t :: ts.map Prod.fst) := by
      simpa using hpair
    have hTt : T < t := (List.pairwise_cons.mp hpair1).1 t (List.mem_cons_self _ _)
    have h0t : 0 ≤ t := le_trans h0T hTt.le
    have hpair2 : List.Pairwise (· < ·) (t :: ts.map Prod.fst) :=
      (List.pairwise_cons.mp hpair1).2
    have hclean : rlClean z t = adm.filter (fun s => decide (t - 1 < s)) := by
      rw [hz]
      exact rlClean_filter adm T t hTt.le (fun a ha => (hadm a ha).1)
    show ∀ w, ((rlRunGo (check_rate_limit z t false).1
      (if (check_rate_limit z t false).2 then adm ++ [t] else adm)
        ts).2.filter (inWindow w)).length ≤ max_requests_per_second
    unfold check_rate_limit
    rw [hclean]
    by_cases hfull : max_requests_per_second ≤
        (adm.filter (fun s => decide (t - 1 < s))).length
    · rw [if_pos hfull]
      simp only [if_neg (by simp : ¬False)]
      show ∀ w, ((rlRunGo (adm.filter (fun s => decide (t - 1 < s))) adm
        ts).2.filter (inWindow w)).length ≤ max_requests_per_second
      exact ih _ adm t rfl
        (fun a ha => ⟨(hadm a ha).1, le_trans (hadm a ha).2 hTt.le⟩)
        hfault2 hpair2 h0t hcount
    · rw [if_neg hfull]
      simp only [if_pos (by trivial : True)]
      have htnot : t ∉ adm.filter (fun s => decide (t - 1 < s)) := by
        intro hmem
        have h1 : t ∈ adm := List.mem_of_mem_filter hmem
        have h2 := (hadm t h1).2
        linarith
      have hradd : rlAdd (adm.filter (fun s => decide (t - 1 < s))) t =
          adm.filter (fun s => decide (t - 1 < s)) ++ [t] := by
        unfold rlAdd
        rw [if_neg htnot]
      rw [hradd]
      show ∀ w, ((rlRunGo (adm.filter (fun s => decide (t - 1 < s)) ++ [t])
        (adm ++ [t]) ts).2.filter (inWindow w)).length ≤
          max_requests_per_second
      have hznew : adm.filter (fun s => decide (t - 1 < s)) ++ [t] =
          (adm ++ [t]).filter (fun s => decide (t - 1 < s)) := by
        rw [List.filter_append]
        have hd : decide (t - 1 < t) = true := decide_eq_true (by linarith)
        have : (List.filter (fun s => decide (t - 1 < s)) [t]) = [t] := by
          simp only [List.filter, hd]
        rw [this]
      have hadm2 : ∀ a ∈ adm ++ [t], 0 ≤ a ∧ a ≤ t := by
        intro a ha
        rcases List.mem_append.mp ha with h | h
        · exact ⟨(hadm a h).1, le_trans (hadm a h).2 hTt.le⟩
        · rcases List.mem_singleton.mp h with rfl
          exact ⟨h0t, le_refl _⟩
      have hcount2 : ∀ w, ((adm ++ [t]).filter (inWindow w)).length ≤
          max_requests_per_second := by
        intro w
        rw [List.filter_append]
        by_cases hwt : inWindow w t = true
        · have hsub : (adm.filter (inWindow w)).length ≤
              (adm.filter (fun s => decide (t - 1 < s))).length := by
            apply length_filter_mono
            intro a _ hwa
            simp only [inWindow, Bool.and_eq_true, decide_eq_true_eq] at hwa
            simp only [inWindow, Bool.and_eq_true, decide_eq_true_eq] at hwt
            simp only [decide_eq_true_eq]
            obtain ⟨hw1, hw2⟩ := hwa
            obtain ⟨hw3, hw4⟩ := hwt
            linarith
          rw [List.length_append]
          have hlt4 : (adm.filter (fun s => decide (t - 1 < s))).length + 1 ≤
              max_requests_per_second := by omega
          have : (List.filter (inWindow w) [t]).length ≤ 1 := by
            cases h : inWindow w t <;> simp [List.filter, h]
          omega
        · have hwtf : inWindow w t = false := Bool.not_eq_true _ |>.mp hwt
          have : (List.filter (inWindow w) [t]) = [] := by
            simp only [List.filter, hwtf]
          rw [this, List.append_nil]
          exact hcount w
      exact ih _ (adm ++ [t]) t hznew hadm2 hfault2 hpair2 h0t hcount2

/-- C8 (amended): run sequentially, without Redis errors (the except
    handler admits fail-open without recording the call) and at strictly
    increasing attempt times (zadd of the member str(t) deduplicates,
    so a repeated timestamp is admitted without growing the set), the
    limiter keeps every sliding one-second window at or below the cap,
    and a blocked attempt simply retries later rather than erroring; the
    bound does not survive concurrent interleaving of the non-atomic
    check and add. -/
theorem rate_limit_seq_bound (ts : List (Rat × Bool))
    (hfault : ∀ p ∈ ts, p.2 = false)
    (hsort : List.Pairwise (· < ·) (ts.map Prod.fst))
    (hpos : ∀ p ∈ ts, 0 < p.1) :
    ∀ w, ((rlRun ts).2.filter (inWindow w)).length ≤
      max_requests_per_second := by
  have hp : List.Pairwise (· < ·) ((0 : Rat) :: ts.map Prod.fst) := by
    refine List.pairwise_cons.mpr ⟨?_, hsort⟩
    intro a ha
    obtain ⟨p, hpm, rfl⟩ := List.mem_map.mp ha
    exact hpos p hpm
  apply rlRunGo_bound ts [] [] 0 rfl (by simp) hfault hp (le_refl 0)
  intro w
  simp [List.filter]

/-- Witness for C8's amended sequential bound at concrete fault-free
    attempt times and window. -/
theorem rate_limit_seq_bound_witness :
    ((rlRun [((1 : Rat)/2, false), (1, false), (3/2, false)]).2.filter
      (inWindow 0)).length ≤ max_requests_per_second :=
  rate_limit_seq_bound [((1 : Rat)/2, false), (1, false), (3/2, false)]
    (by norm_num) (by norm_num [List.pairwise_cons]) (by norm_num) 0
